import Mathlib

/-!
# Keyed set store (`set.go`)

A shallow embedding of the Go package `set`: the element container `set`
(`map[interface{}]struct{}`), the algebra `union` / `difference` /
`intersection`, and the registry `Set` (`map[string]set`) with its command
surface.

Modelling decisions.

* A Go map with `struct{}` values is a finite set of keys: `set ι` is
  `Finset ι`, for an element type `ι` with decidable equality (the
  comparable element values of the data model; dynamic types that cannot be
  hashed are outside it).
* `for k := range m` visits every entry of `m` exactly once, in an order the
  language leaves unspecified and that may differ from one loop to the next.
  The order is supplied by a `RangeOrder`: every dynamic occurrence of a
  `range` statement is identified by a path of numbers and gets its own
  duplicate-free enumeration of the map.  All theorems hold for every
  `RangeOrder`.
* Methods on `*Set` that write take the registry and return the result
  together with the registry after the call.
* Go `int` is modelled by `Int`; the one place where two's complement overflow
  can occur (`count = -count`) wraps explicitly to 64 bits.
* A slice index out of range is a run-time panic: the three combine
  operations return `Option`, with `none` for the panic.
* `Keys()` enumerates the registry map and is not part of the embedding.
* No two keys of the registry share a map (every stored map comes from
  `make`), so the registry holds set values.  Where a statement is about a
  function not modifying the maps passed to it, the function is embedded a
  second time over a heap of maps (`Heap`), and related to the first embedding.
-/

set_option linter.unusedSectionVars false

namespace GoSet

variable {ι : Type} [DecidableEq ι] {σ : Type}

/-! ## Integers -/

/-- Number of bits of a Go `int` on a 64-bit platform. -/
def intBits : Nat := 64

/-- The most negative `int`. -/
def minInt : Int := -(2 ^ (intBits - 1))

/-- The largest `int`. -/
def maxInt : Int := 2 ^ (intBits - 1) - 1

/-- Two's complement wrap-around of a mathematical integer into the range of `int`. -/
def wrapInt (x : Int) : Int :=
  (x + 2 ^ (intBits - 1)) % 2 ^ intBits - 2 ^ (intBits - 1)

/-! ## Iteration order of `range` over a map -/

/-- An assignment of an enumeration order to every execution of a `range` loop
over a map.  `seq t m` is the order in which the loop identified by `t` visits
the keys of `m`: each key exactly once. -/
structure RangeOrder (ι : Type) where
  /-- The keys of the map in visiting order. -/
  seq : List Nat → Finset ι → List ι
  /-- No key is visited twice. -/
  nodup : ∀ t m, (seq t m).Nodup
  /-- Exactly the keys of the map are visited. -/
  mem : ∀ t m x, x ∈ seq t m ↔ x ∈ m

/-- The orders used by the `i`-th callee or loop iteration of the current function. -/
def RangeOrder.sub (ro : RangeOrder ι) (i : Nat) : RangeOrder ι where
  seq t m := ro.seq (i :: t) m
  nodup t m := ro.nodup (i :: t) m
  mem t m x := ro.mem (i :: t) m x

/-- The visiting order of a `range` loop written in the current function. -/
def RangeOrder.range (ro : RangeOrder ι) (m : Finset ι) : List ι :=
  ro.seq [] m

/-- A concrete iteration order: the sorted keys, started at an offset that
depends on the loop (Go starts a map iteration at a random offset). -/
def RangeOrder.rotating {κ : Type} [LinearOrder κ] : RangeOrder κ where
  seq t m := (m.sort (fun a b => a ≤ b)).rotate t.sum
  nodup t m := List.nodup_rotate.mpr (m.sort_nodup _)
  mem t m x := by rw [List.mem_rotate]; exact Finset.mem_sort _

/-! ## The container `set` -/

/-- The type `set`, `map[interface{}]struct{}`: a finite set of elements. -/
abbrev set (ι : Type) := Finset ι

/-- Source `newSet` creates an empty set. -/
def newSet : set ι := ∅

/-- Source `add` inserts the given items; with no items it returns at once. -/
def set.add (s : set ι) (items : List ι) : set ι :=
  if items.length = 0 then s
  else items.foldl (fun s item => insert item s) s

/-- Source `remove` deletes the given items; with no items it returns at once. -/
def set.remove (s : set ι) (items : List ι) : set ι :=
  if items.length = 0 then s
  else items.foldl (fun s item => s.erase item) s

/-- The loop of `has`: `exist` is overwritten by each lookup and the loop
breaks at the first item that is missing. -/
def hasLoop (s : set ι) : List ι → Bool → Bool
  | [], exist => exist
  | item :: items, _ => if item ∈ s then hasLoop s items true else false

/-- Source `has` is true when all the given items are in the set, false for no items. -/
def set.has (s : set ι) (items : List ι) : Bool :=
  if items.length = 0 then false
  else hasLoop s items true

/-- The loop of `each` over the keys in visiting order: the closure `f` updates
the variables it captured (the state `σ`) and answers whether to go on. -/
def eachLoop (f : ι → σ → σ × Bool) : List ι → σ → σ
  | [], st => st
  | item :: items, st =>
    let r := f item st
    if r.2 then eachLoop f items r.1 else r.1

/-- Source `each` calls `f` on every item until `f` returns false. -/
def set.each (ro : RangeOrder ι) (s : set ι) (f : ι → σ → σ × Bool) (st : σ) : σ :=
  eachLoop f (ro.range s) st

/-- Source `copy` returns a new set with the items of `s`. -/
def set.copy (ro : RangeOrder ι) (s : set ι) : set ι :=
  (ro.range s).foldl (fun u item => set.add u [item]) newSet

/-- Source `list` returns a slice of all items. -/
def set.list (ro : RangeOrder ι) (s : set ι) : List ι :=
  (ro.range s).foldl (fun list item => list ++ [item]) []

/-- Source `size` is `len(s)`. -/
def set.size (s : set ι) : Int := (s.card : Int)

/-- Source `Merge` adds the items of `t` to `s`. -/
def set.Merge (ro : RangeOrder ι) (s t : set ι) : set ι :=
  set.each ro t (fun item s => (insert item s, true)) s

/-- Source `Separate` removes the items of `t` from `s`. -/
def set.Separate (ro : RangeOrder ι) (s t : set ι) : set ι :=
  set.remove s (set.list ro t)

/-! ## The algebra -/

/-- The loop `for _, set := range sets` of `union`; `i` numbers the iterations. -/
def unionRest (ro : RangeOrder ι) : Nat → List (set ι) → set ι → set ι
  | _, [], u => u
  | i, t :: sets, u =>
    unionRest ro (i + 1) sets
      (set.each (ro.sub i) t (fun item u => (set.add u [item], true)) u)

/-- Source `union(set1, set2, sets...)`. -/
def union (ro : RangeOrder ι) (set1 set2 : set ι) (sets : List (set ι)) : set ι :=
  let u := set.copy (ro.sub 0) set1
  let u := set.each (ro.sub 1) set2 (fun item u => (set.add u [item], true)) u
  unionRest ro 2 sets u

/-- The loop `for _, set := range sets` of `difference`. -/
def differenceRest (ro : RangeOrder ι) : Nat → List (set ι) → set ι → set ι
  | _, [], s => s
  | i, t :: sets, s => differenceRest ro (i + 1) sets (set.Separate (ro.sub i) s t)

/-- Source `difference(set1, set2, sets...)`. -/
def difference (ro : RangeOrder ι) (set1 set2 : set ι) (sets : List (set ι)) : set ι :=
  let s := set.copy (ro.sub 0) set1
  let s := set.Separate (ro.sub 1) s set2
  differenceRest ro 2 sets s

/-- The closure that `intersection` passes to `all.each`; the captured variable is `result`. -/
def intersectionVisit (set1 set2 : set ι) (sets : List (set ι)) (item : ι) (result : set ι) :
    set ι × Bool :=
  let result :=
    if !set.has set1 [item] || !set.has set2 [item] then set.remove result [item] else result
  let result :=
    sets.foldl (fun result t => if !set.has t [item] then set.remove result [item] else result)
      result
  (result, true)

/-- Source `intersection(set1, set2, sets...)`. -/
def intersection (ro : RangeOrder ι) (set1 set2 : set ι) (sets : List (set ι)) : set ι :=
  let all := union (ro.sub 0) set1 set2 sets
  let result := union (ro.sub 1) set1 set2 sets
  set.each (ro.sub 2) all (intersectionVisit set1 set2 sets) result

/-! ## The registry `Set` -/

/-- The type `Set`: `records map[string]set`, a partial map from keys to sets. -/
structure Set (ι : Type) where
  /-- The set stored under a key, `none` when the key is not in the map. -/
  records : String → Option (set ι)

/-- Source `New()` returns a registry with no keys. -/
def New : Set ι := ⟨fun _ => none⟩

/-- The expression `s.records[key]`: the stored set, or the zero value (a nil
map, which reads as an empty map) when the key is absent. -/
def Set.get (s : Set ι) (key : String) : set ι :=
  (s.records key).getD ∅

/-- The registry after `s.records[key]` has been assigned or mutated in place to `v`. -/
def Set.put (s : Set ι) (key : String) (v : set ι) : Set ι :=
  ⟨Function.update s.records key (some v)⟩

/-- Source `exists(key)`: the key is in the map. -/
def Set.exists (s : Set ι) (key : String) : Bool :=
  (s.records key).isSome

/-- Source `fieldExists(key, field)`. -/
def Set.fieldExists (s : Set ι) (key : String) (field : ι) : Bool :=
  match s.records key with
  | none => false
  | some fieldSet => set.has fieldSet [field]

/-- Source `SAdd(key, member)`. -/
def Set.SAdd (s : Set ι) (key : String) (member : ι) : Int × Set ι :=
  let s := if !s.exists key then s.put key newSet else s
  let s := s.put key (set.add (s.get key) [member])
  (set.size (s.get key), s)

/-- The loop of `SPop` over the keys `k` of `s.records[key]` in visiting order.
Only the entry being visited is deleted, so every entry of the map as it was
at the start of the loop is produced.  `count` is positive when the loop is
entered, so `count--` cannot overflow. -/
def popLoop (key : String) : List ι → Set ι → List ι → Int → List ι × Set ι
  | [], s, val, _ => (val, s)
  | k :: ks, s, val, count =>
    let s := s.put key (set.remove (s.get key) [k])
    let val := val ++ [k]
    let count := count - 1
    if count = 0 then (val, s) else popLoop key ks s val count

/-- Source `SPop(key, count)`. -/
def Set.SPop (ro : RangeOrder ι) (s : Set ι) (key : String) (count : Int) : List ι × Set ι :=
  if !s.exists key || count ≤ 0 then ([], s)
  else popLoop key (ro.range (s.get key)) s [] count

/-- Source `SIsMember(key, member)`. -/
def Set.SIsMember (s : Set ι) (key : String) (member : ι) : Bool :=
  s.fieldExists key member

/-- The loop of `SRandMember` for a positive count: append and stop when
`len(val) == count`. -/
def randLoop (count : Int) : List ι → List ι → List ι
  | [], val => val
  | k :: ks, val =>
    let val := val ++ [k]
    if (val.length : Int) = count then val else randLoop count ks val

/-- The closure `randomVal` of `SRandMember`: the first key a `range` over the
map produces, and `nil` when the map has no key. -/
def randomVal (ro : RangeOrder ι) (nil : ι) (m : set ι) : ι :=
  match ro.range m with
  | k :: _ => k
  | [] => nil

/-- The loop `for count > 0 { val = append(val, randomVal()); count-- }`, by
recursion on the number of iterations left; `i` numbers the iterations. -/
def randomLoop (ro : RangeOrder ι) (nil : ι) (m : set ι) : Nat → Nat → List ι → List ι
  | 0, _, val => val
  | n + 1, i, val => randomLoop ro nil m n (i + 1) (val ++ [randomVal (ro.sub i) nil m])

/-- Source `SRandMember(key, count)`.  `nil` is the value of Go's `nil` in the element
type `interface{}`.  The method writes nothing: the registry is returned as it was. -/
def Set.SRandMember (ro : RangeOrder ι) (nil : ι) (s : Set ι) (key : String) (count : Int) :
    List ι × Set ι :=
  if !s.exists key || count = 0 then ([], s)
  else if count > 0 then (randLoop count (ro.range (s.get key)) [], s)
  else
    let count := wrapInt (-count)
    (randomLoop ro nil (s.get key) count.toNat 0 [], s)

/-- Source `SRem(key, member)`. -/
def Set.SRem (s : Set ι) (key : String) (member : ι) : Bool × Set ι :=
  if !s.exists key then (false, s)
  else if set.has (s.get key) [member] then
    (true, s.put key (set.remove (s.get key) [member]))
  else (false, s)

/-- Source `SMove(src, dst, member)`. -/
def Set.SMove (s : Set ι) (src dst : String) (member : ι) : Bool × Set ι :=
  if !s.fieldExists src member then (false, s)
  else
    let s := if !s.exists dst then s.put dst newSet else s
    let s := s.put src (set.remove (s.get src) [member])
    let s := s.put dst (set.add (s.get dst) [member])
    (true, s)

/-- Source `SCard(key)`. -/
def Set.SCard (s : Set ι) (key : String) : Int :=
  if !s.exists key then 0 else set.size (s.get key)

/-- Source `SMembers(key)`. -/
def Set.SMembers (ro : RangeOrder ι) (s : Set ι) (key : String) : List ι :=
  if !s.exists key then [] else set.list ro (s.get key)

/-- The loop shared by `SUnion`, `SDiff` and `SInter` that collects into the
slice `m` the sets of the keys that exist. -/
def Set.collect (s : Set ι) (keys : List String) : List (set ι) :=
  keys.foldl (fun m k => if s.exists k then m ++ [s.get k] else m) []

/-- The loop `for k := range un { val = append(val, k) }`. -/
def appendAll (ro : RangeOrder ι) (un : set ι) : List ι :=
  (ro.range un).foldl (fun val k => val ++ [k]) []

/-- Source `SUnion(keys...)`; `none` is the panic of `m[0]`, `m[1]` or `m[2:]` out of range. -/
def Set.SUnion (ro : RangeOrder ι) (s : Set ι) (keys : List String) : Option (List ι) :=
  match keys with
  | [] => some []
  | [k] => if s.exists k then some (set.list ro (s.get k)) else some []
  | _ =>
    let m := s.collect keys
    match m[0]?, m[1]? with
    | some m0, some m1 =>
      let un := union (ro.sub 0) m0 m1 (m.drop 2)
      some (appendAll (ro.sub 1) un)
    | _, _ => none

/-- Source `SDiff(keys...)`; `none` is the panic of `m[0]`, `m[1]` or `m[2:]` out of range. -/
def Set.SDiff (ro : RangeOrder ι) (s : Set ι) (keys : List String) : Option (List ι) :=
  match keys with
  | [] => some []
  | [k] => if s.exists k then some (set.list ro (s.get k)) else some []
  | _ =>
    let m := s.collect keys
    match m[0]?, m[1]? with
    | some m0, some m1 =>
      let diff := difference (ro.sub 0) m0 m1 (m.drop 2)
      some (appendAll (ro.sub 1) diff)
    | _, _ => none

/-- Source `SInter(keys...)`; `none` is the panic of `inter[0]`, `inter[1]` or `inter[2:]`
out of range. -/
def Set.SInter (ro : RangeOrder ι) (s : Set ι) (keys : List String) : Option (List ι) :=
  match keys with
  | [] => some []
  | [k] => if s.exists k then some (set.list ro (s.get k)) else some []
  | _ =>
    let inter := s.collect keys
    match inter[0]?, inter[1]? with
    | some i0, some i1 =>
      let m := intersection (ro.sub 0) i0 i1 (inter.drop 2)
      some (appendAll (ro.sub 1) m)
    | _, _ => none

/-- The loop `for _, k := range un { s.SAdd(key, k) }` of the store variants. -/
def Set.addAll (s : Set ι) (key : String) (un : List ι) : Set ι :=
  un.foldl (fun s k => (s.SAdd key k).2) s

/-- Source `SUnionStore(key, keys...)`. -/
def Set.SUnionStore (ro : RangeOrder ι) (s : Set ι) (key : String) (keys : List String) :
    Option (Int × Set ι) :=
  match s.SUnion ro keys with
  | none => none
  | some un => some ((un.length : Int), s.addAll key un)

/-- Source `SDiffStore(key, keys...)`. -/
def Set.SDiffStore (ro : RangeOrder ι) (s : Set ι) (key : String) (keys : List String) :
    Option (Int × Set ι) :=
  match s.SDiff ro keys with
  | none => none
  | some diff => some ((diff.length : Int), s.addAll key diff)

/-- Source `SInterStore(key, keys...)`. -/
def Set.SInterStore (ro : RangeOrder ι) (s : Set ι) (key : String) (keys : List String) :
    Option (Int × Set ι) :=
  match keys with
  | [] => some (0, s)
  | [k] => if s.exists k then some (((s.get k).card : Int), s) else some (0, s)
  | _ =>
    match s.SInter ro keys with
    | none => none
    | some m => some ((m.length : Int), s.addAll key m)

/-- Source `SKeyExists(key)`. -/
def Set.SKeyExists (s : Set ι) (key : String) : Bool :=
  s.exists key

/-- Source `SClear(key)`. -/
def Set.SClear (s : Set ι) (key : String) : Set ι :=
  if s.SKeyExists key then ⟨Function.update s.records key none⟩ else s

/-- The fixture `makeSet(n)` of the tests, for the members `member_1 .. member_n`
given as a list. -/
def makeSet (members : List ι) : Set ι :=
  members.foldl (fun set member => (set.SAdd "set" member).2) New

/-! ## Maps as references

A Go `set` value is a reference to a mutable map.  To state that a function
leaves its argument maps as they were, the algebra is also embedded over a heap
of maps: a reference is an index into the list of maps made so far. -/

/-- The maps that have been made, in order of creation. -/
abbrev Heap (ι : Type) := List (Finset ι)

/-- The content of the map behind a reference (a nil map reads as empty). -/
def Heap.load (h : Heap ι) (s : Nat) : Finset ι :=
  (h[s]?).getD ∅

/-- The heap after the map behind `s` has been updated in place to `v`. -/
def Heap.store (h : Heap ι) (s : Nat) (v : Finset ι) : Heap ι :=
  h.set s v

/-- Source `newSet` on the heap: `make` allocates a fresh empty map. -/
def Heap.newSet (h : Heap ι) : Heap ι × Nat :=
  (h ++ [∅], h.length)

/-- Source `add` on the heap: `s[item] = keyExists` for each item. -/
def Heap.add (h : Heap ι) (s : Nat) (items : List ι) : Heap ι :=
  if items.length = 0 then h
  else items.foldl (fun h item => Heap.store h s (insert item (Heap.load h s))) h

/-- Source `each` on the heap, for closures that always answer to go on and write
to the heap: the keys visited are those of the map behind `s` when the loop
starts (the closures of `union` write to another map). -/
def Heap.each (ro : RangeOrder ι) (h : Heap ι) (s : Nat) (f : ι → Heap ι → Heap ι × Bool) :
    Heap ι :=
  eachLoop f (ro.range (Heap.load h s)) h

/-- Source `copy` on the heap: a fresh map `u` receives the items of `s`. -/
def Heap.copy (ro : RangeOrder ι) (h : Heap ι) (s : Nat) : Heap ι × Nat :=
  let hu := Heap.newSet h
  ((ro.range (Heap.load hu.1 s)).foldl (fun h item => Heap.add h hu.2 [item]) hu.1, hu.2)

/-- The loop `for _, set := range sets` of `union` on the heap. -/
def Heap.unionRest (ro : RangeOrder ι) (u : Nat) : Nat → List Nat → Heap ι → Heap ι
  | _, [], h => h
  | i, t :: sets, h =>
    Heap.unionRest ro u (i + 1) sets
      (Heap.each (ro.sub i) h t (fun item h => (Heap.add h u [item], true)))

/-- Source `union(set1, set2, sets...)` on the heap: returns the heap after the
call and the reference of the new set. -/
def Heap.union (ro : RangeOrder ι) (h : Heap ι) (set1 set2 : Nat) (sets : List Nat) :
    Heap ι × Nat :=
  let hu := Heap.copy (ro.sub 0) h set1
  let h := Heap.each (ro.sub 1) hu.1 set2 (fun item h => (Heap.add h hu.2 [item], true))
  (Heap.unionRest ro hu.2 2 sets h, hu.2)

/-! ## Fixtures of the examples -/

/-- Iteration order used in the examples over string members. -/
def ro0 : RangeOrder String := RangeOrder.rotating

/-- The registry of `TestSet_SUnion`: `set` and `set2` both hold members 1 to 3. -/
def fixUnion : Set String :=
  (makeSet ["member_1", "member_2", "member_3"]).addAll "set2" ["member_1", "member_2", "member_3"]

/-- The registry of `TestSet_SDiff`: `set` holds members 1 to 3, `set2` holds 1, 4 and 5. -/
def fixDiff : Set String :=
  (makeSet ["member_1", "member_2", "member_3"]).addAll "set2" ["member_1", "member_4", "member_5"]

/-- A registry with the keys `b` and `c` and without the key `a`. -/
def fixShift : Set String :=
  ((New : Set String).addAll "b" ["x"]).addAll "c" ["y"]

/-- Element values with Go's `nil`: a string, or `⊥` for the nil interface value. -/
abbrev Value := WithBot String

/-- Iteration order used in the examples over `Value`. -/
def roV : RangeOrder Value := RangeOrder.rotating

/-- The registry `makeSet(3)` over `Value`. -/
def three : Set Value :=
  makeSet [(("member_1" : String) : Value), (("member_2" : String) : Value),
    (("member_3" : String) : Value)]

/-- The registry after `SAdd("set", "a")` and `SRem("set", "a")`: the key `set`
is present and its set is empty. -/
def emptied : Set Value :=
  (((New : Set Value).SAdd "set" (("a" : String) : Value)).2.SRem "set"
    (("a" : String) : Value)).2

/-- A string as an element value. -/
def Value.str (s : String) : Value := (s : WithBot String)

/-- The registry after `SAdd("set", "a")`: one key with one member. -/
def one : Set Value := ((New : Set Value).SAdd "set" (Value.str "a")).2

/-- A heap with three maps for the examples. -/
def fixHeap : Heap String := [{"a", "b"}, {"b", "c"}, {"d"}]

/-! ## The container and the algebra as finite-set operations -/

theorem set.add_singleton (s : set ι) (x : ι) : set.add s [x] = insert x s := by
  simp [set.add]

theorem set.remove_singleton (s : set ι) (x : ι) : set.remove s [x] = s.erase x := by
  simp [set.remove]

theorem set.has_singleton (s : set ι) (x : ι) : set.has s [x] = decide (x ∈ s) := by
  by_cases h : x ∈ s <;> simp [set.has, hasLoop, h]

theorem foldl_insert_eq (l : List ι) (u : Finset ι) :
    l.foldl (fun u item => insert item u) u = u ∪ l.toFinset := by
  induction l generalizing u with
  | nil => simp
  | cons a l ih =>
    rw [List.foldl_cons, ih]
    ext x
    simp only [Finset.mem_union, Finset.mem_insert, List.toFinset_cons]
    tauto

theorem foldl_erase_eq (l : List ι) (u : Finset ι) :
    l.foldl (fun u item => u.erase item) u = u \ l.toFinset := by
  induction l generalizing u with
  | nil => simp
  | cons a l ih =>
    rw [List.foldl_cons, ih]
    ext x
    simp only [Finset.mem_sdiff, Finset.mem_erase, Finset.mem_insert, List.toFinset_cons]
    tauto

theorem foldl_append_singleton (l acc : List ι) :
    l.foldl (fun val k => val ++ [k]) acc = acc ++ l := by
  induction l generalizing acc with
  | nil => simp
  | cons a l ih => rw [List.foldl_cons, ih]; simp

theorem RangeOrder.range_nodup (ro : RangeOrder ι) (m : Finset ι) : (ro.range m).Nodup :=
  ro.nodup [] m

theorem RangeOrder.mem_range (ro : RangeOrder ι) (m : Finset ι) (x : ι) :
    x ∈ ro.range m ↔ x ∈ m :=
  ro.mem [] m x

theorem RangeOrder.range_toFinset (ro : RangeOrder ι) (m : Finset ι) :
    (ro.range m).toFinset = m := by
  ext x; simp [ro.mem_range]

theorem RangeOrder.range_length (ro : RangeOrder ι) (m : Finset ι) :
    (ro.range m).length = m.card := by
  rw [← List.toFinset_card_of_nodup (ro.range_nodup m), ro.range_toFinset]

theorem RangeOrder.range_empty (ro : RangeOrder ι) : ro.range (∅ : Finset ι) = [] := by
  apply List.eq_nil_iff_forall_not_mem.mpr
  intro x; simp [ro.mem_range]

theorem eachLoop_continue (g : ι → σ → σ) (l : List ι) (st : σ) :
    eachLoop (fun item st => (g item st, true)) l st = l.foldl (fun st item => g item st) st := by
  induction l generalizing st with
  | nil => rfl
  | cons a l ih => simp [eachLoop, ih]

theorem set.copy_eq (ro : RangeOrder ι) (s : set ι) : set.copy ro s = s := by
  unfold set.copy
  simp only [set.add_singleton]
  rw [foldl_insert_eq, ro.range_toFinset]
  simp [newSet]

theorem set.list_eq (ro : RangeOrder ι) (s : set ι) : set.list ro s = ro.range s := by
  unfold set.list
  rw [foldl_append_singleton]; simp

theorem appendAll_eq (ro : RangeOrder ι) (s : set ι) : appendAll ro s = ro.range s := by
  unfold appendAll
  rw [foldl_append_singleton]; simp

theorem set.each_add_eq (ro : RangeOrder ι) (t u : set ι) :
    set.each ro t (fun item u => (set.add u [item], true)) u = u ∪ t := by
  unfold set.each
  rw [eachLoop_continue (fun item u => set.add u [item])]
  simp only [set.add_singleton]
  rw [foldl_insert_eq, ro.range_toFinset]

theorem set.Separate_eq (ro : RangeOrder ι) (s t : set ι) : set.Separate ro s t = s \ t := by
  unfold set.Separate set.remove
  rw [set.list_eq, foldl_erase_eq, ro.range_toFinset]
  split
  · next h =>
    have : t = ∅ := by
      rw [ro.range_length] at h
      exact Finset.card_eq_zero.mp h
    simp [this]
  · rfl

theorem unionRest_eq (ro : RangeOrder ι) (i : Nat) (sets : List (set ι)) (u : set ι) :
    unionRest ro i sets u = sets.foldl (fun u t => u ∪ t) u := by
  induction sets generalizing i u with
  | nil => rfl
  | cons t sets ih => simp [unionRest, ih, set.each_add_eq]

theorem differenceRest_eq (ro : RangeOrder ι) (i : Nat) (sets : List (set ι)) (s : set ι) :
    differenceRest ro i sets s = sets.foldl (fun s t => s \ t) s := by
  induction sets generalizing i s with
  | nil => rfl
  | cons t sets ih => simp [differenceRest, ih, set.Separate_eq]

theorem mem_foldl_union (sets : List (Finset ι)) (u : Finset ι) (x : ι) :
    x ∈ sets.foldl (fun u t => u ∪ t) u ↔ x ∈ u ∨ ∃ t ∈ sets, x ∈ t := by
  induction sets generalizing u with
  | nil => simp
  | cons t sets ih =>
    rw [List.foldl_cons, ih]
    simp only [Finset.mem_union, List.mem_cons, exists_eq_or_imp]
    tauto

theorem mem_foldl_sdiff (sets : List (Finset ι)) (u : Finset ι) (x : ι) :
    x ∈ sets.foldl (fun u t => u \ t) u ↔ x ∈ u ∧ ∀ t ∈ sets, x ∉ t := by
  induction sets generalizing u with
  | nil => simp
  | cons t sets ih =>
    rw [List.foldl_cons, ih]
    simp only [Finset.mem_sdiff, List.mem_cons, forall_eq_or_imp]
    tauto

theorem mem_union (ro : RangeOrder ι) (set1 set2 : set ι) (sets : List (set ι)) (x : ι) :
    x ∈ union ro set1 set2 sets ↔ ∃ t ∈ set1 :: set2 :: sets, x ∈ t := by
  unfold union
  simp only [set.copy_eq, set.each_add_eq, unionRest_eq, mem_foldl_union, Finset.mem_union,
    List.mem_cons, exists_eq_or_imp]
  tauto

theorem mem_difference (ro : RangeOrder ι) (set1 set2 : set ι) (sets : List (set ι)) (x : ι) :
    x ∈ difference ro set1 set2 sets ↔ x ∈ set1 ∧ ∀ t ∈ set2 :: sets, x ∉ t := by
  unfold difference
  simp only [set.copy_eq, set.Separate_eq, differenceRest_eq, mem_foldl_sdiff, Finset.mem_sdiff,
    List.mem_cons, forall_eq_or_imp]
  tauto

/-! ## Intersection -/

theorem foldl_remove_unless (sets : List (set ι)) (item : ι) (result : set ι) :
    sets.foldl (fun result t => if !set.has t [item] then set.remove result [item] else result)
        result
      = if ∀ t ∈ sets, item ∈ t then result else result.erase item := by
  induction sets generalizing result with
  | nil => simp
  | cons t sets ih =>
    rw [List.foldl_cons, ih]
    simp only [set.has_singleton, set.remove_singleton, List.mem_cons, forall_eq_or_imp]
    by_cases h1 : item ∈ t <;> by_cases h2 : ∀ t ∈ sets, item ∈ t <;> simp [h1, h2]

theorem intersectionVisit_eq (set1 set2 : set ι) (sets : List (set ι)) (item : ι)
    (result : set ι) :
    intersectionVisit set1 set2 sets item result
      = (if ∀ t ∈ set1 :: set2 :: sets, item ∈ t then result else result.erase item, true) := by
  simp only [intersectionVisit, foldl_remove_unless]
  simp only [set.has_singleton, set.remove_singleton, List.mem_cons, forall_eq_or_imp]
  by_cases h1 : item ∈ set1 <;> by_cases h2 : item ∈ set2 <;>
    by_cases h3 : ∀ t ∈ sets, item ∈ t <;> simp [h1, h2, h3]

theorem mem_eachLoop_intersectionVisit (set1 set2 : set ι) (sets : List (set ι)) (l : List ι)
    (result : set ι) (x : ι) :
    x ∈ eachLoop (intersectionVisit set1 set2 sets) l result
      ↔ x ∈ result ∧ (x ∈ l → ∀ t ∈ set1 :: set2 :: sets, x ∈ t) := by
  induction l generalizing result with
  | nil => simp [eachLoop]
  | cons a l ih =>
    simp only [eachLoop, intersectionVisit_eq, if_true, ih]
    rw [List.mem_cons]
    by_cases ha : ∀ t ∈ set1 :: set2 :: sets, a ∈ t
    · rw [if_pos ha]
      constructor
      · rintro ⟨h1, h2⟩
        refine ⟨h1, ?_⟩
        rintro (rfl | h)
        · exact ha
        · exact h2 h
      · rintro ⟨h1, h2⟩
        exact ⟨h1, fun h => h2 (Or.inr h)⟩
    · rw [if_neg ha, Finset.mem_erase]
      constructor
      · rintro ⟨⟨hne, h1⟩, h2⟩
        refine ⟨h1, ?_⟩
        rintro (rfl | h)
        · exact absurd rfl hne
        · exact h2 h
      · rintro ⟨h1, h2⟩
        refine ⟨⟨?_, h1⟩, fun h => h2 (Or.inr h)⟩
        rintro rfl
        exact ha (h2 (Or.inl rfl))

theorem mem_intersection (ro : RangeOrder ι) (set1 set2 : set ι) (sets : List (set ι)) (x : ι) :
    x ∈ intersection ro set1 set2 sets ↔ ∀ t ∈ set1 :: set2 :: sets, x ∈ t := by
  unfold intersection set.each
  rw [mem_eachLoop_intersectionVisit, RangeOrder.mem_range, mem_union, mem_union]
  constructor
  · rintro ⟨h1, h2⟩
    exact h2 h1
  · intro h
    exact ⟨⟨set1, by simp, h set1 (by simp)⟩, fun _ => h⟩

/-! ## The registry -/

theorem Set.collect_eq (s : Set ι) (keys : List String) :
    s.collect keys = keys.filterMap s.records := by
  unfold Set.collect
  suffices h : ∀ acc : List (set ι),
      keys.foldl (fun m k => if s.exists k then m ++ [s.get k] else m) acc
        = acc ++ keys.filterMap s.records by
    simpa using h []
  induction keys with
  | nil => simp
  | cons k keys ih =>
    intro acc
    rw [List.foldl_cons, ih]
    cases hk : s.records k <;> simp [Set.exists, Set.get, hk, List.filterMap_cons]

theorem Set.mem_collect (s : Set ι) (keys : List String) (t : set ι) :
    t ∈ s.collect keys ↔ ∃ k ∈ keys, s.records k = some t := by
  rw [Set.collect_eq, List.mem_filterMap]

theorem Set.collect_length (s : Set ι) (keys : List String) :
    (s.collect keys).length = (keys.filter (fun k => s.exists k)).length := by
  rw [Set.collect_eq]
  induction keys with
  | nil => rfl
  | cons k keys ih =>
    cases hk : s.records k <;> simp [Set.exists, hk, List.filterMap_cons, List.filter_cons, ih]

theorem Set.collect_perm (s : Set ι) {keys keys' : List String} (h : keys'.Perm keys) :
    (s.collect keys').Perm (s.collect keys) := by
  rw [Set.collect_eq, Set.collect_eq]
  exact h.filterMap _

theorem two_le_length_iff {α : Type} (m : List α) :
    2 ≤ m.length ↔ ∃ a b rest, m = a :: b :: rest := by
  constructor
  · intro h
    match m, h with
    | a :: b :: rest, _ => exact ⟨a, b, rest, rfl⟩
  · rintro ⟨a, b, rest, rfl⟩
    simp

theorem Set.SUnion_of_collect (ro : RangeOrder ι) (s : Set ι) (keys : List String)
    (a b : set ι) (rest : List (set ι)) (h : s.collect keys = a :: b :: rest) :
    s.SUnion ro keys = some ((ro.sub 1).range (union (ro.sub 0) a b rest)) := by
  have hlen : 2 ≤ (s.collect keys).length := by rw [h]; simp
  rw [Set.collect_length] at hlen
  have hk : 2 ≤ keys.length := le_trans hlen (List.length_filter_le _ _)
  match keys, hk with
  | k1 :: k2 :: ks, _ =>
    simp [Set.SUnion, h, appendAll_eq]

theorem Set.SDiff_of_collect (ro : RangeOrder ι) (s : Set ι) (keys : List String)
    (a b : set ι) (rest : List (set ι)) (h : s.collect keys = a :: b :: rest) :
    s.SDiff ro keys = some ((ro.sub 1).range (difference (ro.sub 0) a b rest)) := by
  have hlen : 2 ≤ (s.collect keys).length := by rw [h]; simp
  rw [Set.collect_length] at hlen
  have hk : 2 ≤ keys.length := le_trans hlen (List.length_filter_le _ _)
  match keys, hk with
  | k1 :: k2 :: ks, _ =>
    simp [Set.SDiff, h, appendAll_eq]

theorem Set.SInter_of_collect (ro : RangeOrder ι) (s : Set ι) (keys : List String)
    (a b : set ι) (rest : List (set ι)) (h : s.collect keys = a :: b :: rest) :
    s.SInter ro keys = some ((ro.sub 1).range (intersection (ro.sub 0) a b rest)) := by
  have hlen : 2 ≤ (s.collect keys).length := by rw [h]; simp
  rw [Set.collect_length] at hlen
  have hk : 2 ≤ keys.length := le_trans hlen (List.length_filter_le _ _)
  match keys, hk with
  | k1 :: k2 :: ks, _ =>
    simp [Set.SInter, h, appendAll_eq]

/-! ## The combine operations `SUnion`, `SDiff`, `SInter` -/

theorem Set.collect_cons (s : Set ι) (k : String) (ks : List String) :
    s.collect (k :: ks) = (s.records k).toList ++ s.collect ks := by
  rw [Set.collect_eq, Set.collect_eq]
  cases h : s.records k <;> simp [List.filterMap_cons, h]

theorem Set.exists_iff (s : Set ι) (k : String) :
    s.exists k = true ↔ ∃ m, s.records k = some m := by
  unfold Set.exists
  exact Option.isSome_iff_exists

theorem Set.SUnion_eq_none_iff (ro : RangeOrder ι) (s : Set ι) (keys : List String)
    (hkeys : 2 ≤ keys.length) :
    s.SUnion ro keys = none ↔ (keys.filter (fun k => s.exists k)).length < 2 := by
  rw [← Set.collect_length]
  match keys, hkeys with
  | k1 :: k2 :: ks, _ =>
    match h : s.collect (k1 :: k2 :: ks) with
    | [] => simp [Set.SUnion, h]
    | [a] => simp [Set.SUnion, h]
    | a :: b :: rest => simp [Set.SUnion, h]

theorem Set.SDiff_eq_none_iff (ro : RangeOrder ι) (s : Set ι) (keys : List String)
    (hkeys : 2 ≤ keys.length) :
    s.SDiff ro keys = none ↔ (keys.filter (fun k => s.exists k)).length < 2 := by
  rw [← Set.collect_length]
  match keys, hkeys with
  | k1 :: k2 :: ks, _ =>
    match h : s.collect (k1 :: k2 :: ks) with
    | [] => simp [Set.SDiff, h]
    | [a] => simp [Set.SDiff, h]
    | a :: b :: rest => simp [Set.SDiff, h]

theorem Set.SInter_eq_none_iff (ro : RangeOrder ι) (s : Set ι) (keys : List String)
    (hkeys : 2 ≤ keys.length) :
    s.SInter ro keys = none ↔ (keys.filter (fun k => s.exists k)).length < 2 := by
  rw [← Set.collect_length]
  match keys, hkeys with
  | k1 :: k2 :: ks, _ =>
    match h : s.collect (k1 :: k2 :: ks) with
    | [] => simp [Set.SInter, h]
    | [a] => simp [Set.SInter, h]
    | a :: b :: rest => simp [Set.SInter, h]

theorem Set.SDiff_single (ro : RangeOrder ι) (s : Set ι) (k : String) (base : set ι)
    (h : s.records k = some base) : s.SDiff ro [k] = some (ro.range base) := by
  simp [Set.SDiff, Set.exists, Set.get, h, set.list_eq]

/-- Claim C1.  `SUnion` over existing keys is set union with absent keys skipped:
when at least two of the listed keys are present in the registry (so the list
has two or more keys), `SUnion(keys...)` returns a duplicate-free sequence, and
an element occurs in it exactly when it is a member of the set of some listed
key that is present. -/
theorem SUnion_is_union (ro : RangeOrder ι) (s : Set ι) (keys : List String)
    (hpresent : 2 ≤ (keys.filter (fun k => s.exists k)).length) :
    ∃ val, s.SUnion ro keys = some val ∧ val.Nodup ∧
      ∀ x, x ∈ val ↔ ∃ k ∈ keys, ∃ m, s.records k = some m ∧ x ∈ m := by
  rw [← Set.collect_length, two_le_length_iff] at hpresent
  obtain ⟨a, b, rest, h⟩ := hpresent
  refine ⟨_, Set.SUnion_of_collect ro s keys a b rest h, RangeOrder.range_nodup _ _, ?_⟩
  intro x
  rw [RangeOrder.mem_range, mem_union, ← h]
  simp only [Set.mem_collect]
  constructor
  · rintro ⟨t, ⟨k, hk, hkt⟩, hx⟩
    exact ⟨k, hk, t, hkt, hx⟩
  · rintro ⟨k, hk, t, hkt, hx⟩
    exact ⟨t, ⟨k, hk, hkt⟩, hx⟩

/-- The scenario of `TestSet_SUnion` as an instance of `SUnion_is_union`. -/
theorem SUnion_is_union_witness :
    2 ≤ (["set", "set2"].filter (fun k => fixUnion.exists k)).length ∧
    ∃ val, fixUnion.SUnion ro0 ["set", "set2"] = some val ∧ val.Nodup ∧
      ∀ x, x ∈ val ↔ ∃ k ∈ ["set", "set2"], ∃ m, fixUnion.records k = some m ∧ x ∈ m :=
  ⟨by decide, SUnion_is_union ro0 fixUnion ["set", "set2"] (by decide)⟩

/-- Claim C2.  `SDiff` subtracts the later keys from the first.  When the first
key is present with set `base` and at least one later key is present, the
result is a duplicate-free sequence whose elements are exactly the members of
`base` that are in no set of a later listed key (absent later keys subtract
nothing); and `SDiff` of the single present key returns exactly the members of
`base`. -/
theorem SDiff_subtracts_later_keys (ro : RangeOrder ι) (s : Set ι) (first : String)
    (later : List String) (base : set ι) (hfirst : s.records first = some base) :
    ((∃ k ∈ later, s.exists k = true) →
      ∃ val, s.SDiff ro (first :: later) = some val ∧ val.Nodup ∧
        ∀ x, x ∈ val ↔ x ∈ base ∧ ∀ k ∈ later, ∀ m, s.records k = some m → x ∉ m) ∧
    ∃ val, s.SDiff ro [first] = some val ∧ val.Nodup ∧ ∀ x, x ∈ val ↔ x ∈ base := by
  constructor
  · rintro ⟨k, hk, hex⟩
    obtain ⟨m, hm⟩ := (Set.exists_iff s k).mp hex
    have hmem : m ∈ s.collect later := (Set.mem_collect s later m).mpr ⟨k, hk, hm⟩
    obtain ⟨b, rest, hrest⟩ : ∃ b rest, s.collect later = b :: rest := by
      cases hc : s.collect later with
      | nil => rw [hc] at hmem; simp at hmem
      | cons b rest => exact ⟨b, rest, rfl⟩
    have hcol : s.collect (first :: later) = base :: b :: rest := by
      rw [Set.collect_cons, hfirst, hrest]; rfl
    refine ⟨_, Set.SDiff_of_collect ro s _ base b rest hcol, RangeOrder.range_nodup _ _, ?_⟩
    intro x
    rw [RangeOrder.mem_range, mem_difference, ← hrest]
    simp only [Set.mem_collect]
    constructor
    · rintro ⟨hx, h⟩
      exact ⟨hx, fun k hk m hm => h m ⟨k, hk, hm⟩⟩
    · rintro ⟨hx, h⟩
      refine ⟨hx, ?_⟩
      rintro t ⟨k, hk, hm⟩
      exact h k hk t hm
  · exact ⟨_, Set.SDiff_single ro s first base hfirst, ro.range_nodup base,
      fun x => ro.mem_range base x⟩

/-- The scenario of `TestSet_SDiff` as an instance of `SDiff_subtracts_later_keys`. -/
theorem SDiff_subtracts_later_keys_witness :
    fixDiff.records "set" = some {"member_3", "member_2", "member_1"} ∧
    (∃ k ∈ ["set2"], fixDiff.exists k = true) ∧
    (∃ val, fixDiff.SDiff ro0 ["set", "set2"] = some val ∧ val.Nodup ∧
        ∀ x, x ∈ val ↔ x ∈ ({"member_3", "member_2", "member_1"} : Finset String) ∧
          ∀ k ∈ ["set2"], ∀ m, fixDiff.records k = some m → x ∉ m) ∧
    ∃ val, fixDiff.SDiff ro0 ["set"] = some val ∧ val.Nodup ∧
      ∀ x, x ∈ val ↔ x ∈ ({"member_3", "member_2", "member_1"} : Finset String) :=
  have h0 : fixDiff.records "set" = some {"member_3", "member_2", "member_1"} := by decide
  have h1 : ∃ k ∈ ["set2"], fixDiff.exists k = true := ⟨"set2", by simp, by decide⟩
  ⟨h0, h1, (SDiff_subtracts_later_keys ro0 fixDiff "set" ["set2"] _ h0).1 h1,
    (SDiff_subtracts_later_keys ro0 fixDiff "set" ["set2"] _ h0).2⟩

/-- Claim C3.  `SInter` keeps exactly the elements present in every operand: when
at least two of the listed keys are present, `SInter(keys...)` returns a
duplicate-free sequence in which an element occurs exactly when it is a member
of the set of every listed key that is present; and for every reordering of
the keys (under any iteration order) the result has the same members. -/
theorem SInter_is_intersection (ro : RangeOrder ι) (s : Set ι) (keys : List String)
    (hpresent : 2 ≤ (keys.filter (fun k => s.exists k)).length) :
    ∃ val, s.SInter ro keys = some val ∧ val.Nodup ∧
      (∀ x, x ∈ val ↔ ∀ k ∈ keys, ∀ m, s.records k = some m → x ∈ m) ∧
      ∀ (ro' : RangeOrder ι) (keys' : List String), keys'.Perm keys →
        ∃ val', s.SInter ro' keys' = some val' ∧ ∀ x, x ∈ val' ↔ x ∈ val := by
  rw [← Set.collect_length, two_le_length_iff] at hpresent
  obtain ⟨a, b, rest, h⟩ := hpresent
  refine ⟨_, Set.SInter_of_collect ro s keys a b rest h, RangeOrder.range_nodup _ _, ?_, ?_⟩
  · intro x
    rw [RangeOrder.mem_range, mem_intersection, ← h]
    simp only [Set.mem_collect]
    constructor
    · intro hx k hk m hm
      exact hx m ⟨k, hk, hm⟩
    · rintro hx t ⟨k, hk, hm⟩
      exact hx k hk t hm
  · intro ro' keys' hperm
    have hp := Set.collect_perm s hperm
    have hlen : 2 ≤ (s.collect keys').length := by rw [hp.length_eq, h]; simp
    obtain ⟨a', b', rest', h'⟩ := (two_le_length_iff _).mp hlen
    refine ⟨_, Set.SInter_of_collect ro' s keys' a' b' rest' h', ?_⟩
    intro x
    rw [RangeOrder.mem_range, RangeOrder.mem_range, mem_intersection, mem_intersection,
      ← h, ← h']
    exact ⟨fun hx t ht => hx t (hp.mem_iff.mpr ht), fun hx t ht => hx t (hp.mem_iff.mp ht)⟩

/-- An instance of `SInter_is_intersection` with one absent key among three. -/
theorem SInter_is_intersection_witness :
    2 ≤ (["set", "not_set", "set2"].filter (fun k => fixDiff.exists k)).length ∧
    ∃ val, fixDiff.SInter ro0 ["set", "not_set", "set2"] = some val ∧ val.Nodup ∧
      (∀ x, x ∈ val ↔ ∀ k ∈ ["set", "not_set", "set2"], ∀ m, fixDiff.records k = some m → x ∈ m) ∧
      ∀ (ro' : RangeOrder String) (keys' : List String),
        keys'.Perm ["set", "not_set", "set2"] →
        ∃ val', fixDiff.SInter ro' keys' = some val' ∧ ∀ x, x ∈ val' ↔ x ∈ val :=
  ⟨by decide, SInter_is_intersection ro0 fixDiff ["set", "not_set", "set2"] (by decide)⟩

/-- Claim C4, evaluated where it fails.  With two listed keys of which none is
present (the empty registry), and with two listed keys of which one is present,
each of `SUnion`, `SDiff` and `SInter` panics on a slice index out of range
instead of returning a result. -/
theorem combine_panics_when_fewer_than_two_keys_present :
    (New : Set String).SUnion ro0 ["a", "b"] = none ∧
    (New : Set String).SDiff ro0 ["a", "b"] = none ∧
    (New : Set String).SInter ro0 ["a", "b"] = none ∧
    (makeSet ["member_1"]).SUnion ro0 ["set", "not_set"] = none ∧
    (makeSet ["member_1"]).SDiff ro0 ["set", "not_set"] = none ∧
    (makeSet ["member_1"]).SInter ro0 ["set", "not_set"] = none := by
  refine ⟨?_, ?_, ?_, ?_, ?_, ?_⟩ <;> decide

/-- Claim C5, evaluated where it fails.  In a registry where `a` is absent and
`b`, `c` hold `x` and `y`, `SDiff("a", "b", "c")` returns a sequence containing
`x`, which is not a member of the set of the first listed key `a`: the first
present key `b` has become the base. -/
theorem SDiff_base_shifts_when_first_key_absent :
    fixShift.exists "a" = false ∧
    2 ≤ (["a", "b", "c"].filter (fun k => fixShift.exists k)).length ∧
    ∃ val, fixShift.SDiff ro0 ["a", "b", "c"] = some val ∧ "x" ∈ val ∧
      fixShift.SIsMember "a" "x" = false := by
  refine ⟨by decide, by decide, _, Set.SDiff_of_collect ro0 fixShift _ {"x"} {"y"} [] (by decide),
    ?_, by decide⟩
  rw [RangeOrder.mem_range, mem_difference]
  decide


/-! ## Registry updates and observers -/

theorem Set.ext_records {s t : Set ι} (h : s.records = t.records) : s = t := by
  cases s; cases t; simp only [Set.mk.injEq]; exact h

theorem Set.put_records_same (s : Set ι) (key : String) (v : set ι) :
    (s.put key v).records key = some v := by
  simp [Set.put]

theorem Set.put_records_ne (s : Set ι) {key k : String} (v : set ι) (h : k ≠ key) :
    (s.put key v).records k = s.records k := by
  simp [Set.put, Function.update_noteq h]

theorem Set.get_put_same (s : Set ι) (key : String) (v : set ι) :
    (s.put key v).get key = v := by
  simp [Set.get, Set.put]

theorem Set.put_put (s : Set ι) (key : String) (v w : set ι) :
    (s.put key v).put key w = s.put key w := by
  simp [Set.put]

theorem Set.put_self (s : Set ι) (key : String) (m : set ι) (h : s.records key = some m) :
    s.put key m = s := by
  apply Set.ext_records
  simp only [Set.put]
  rw [← h]
  exact Function.update_eq_self key s.records

theorem Set.get_of_records (s : Set ι) (key : String) (m : set ι) (h : s.records key = some m) :
    s.get key = m := by
  simp [Set.get, h]

theorem Set.SIsMember_iff (s : Set ι) (key : String) (x : ι) :
    s.SIsMember key x = true ↔ ∃ m, s.records key = some m ∧ x ∈ m := by
  unfold Set.SIsMember Set.fieldExists
  cases h : s.records key <;> simp [set.has_singleton]

theorem Set.SIsMember_of_records (s : Set ι) (key : String) (m : set ι) (x : ι)
    (h : s.records key = some m) : s.SIsMember key x = decide (x ∈ m) := by
  unfold Set.SIsMember Set.fieldExists
  simp [h, set.has_singleton]

theorem Set.SCard_of_records (s : Set ι) (key : String) (m : set ι)
    (h : s.records key = some m) : s.SCard key = (m.card : Int) := by
  simp [Set.SCard, Set.exists, Set.get, h, set.size]

theorem Set.SCard_of_absent (s : Set ι) (key : String) (h : s.records key = none) :
    s.SCard key = 0 := by
  simp [Set.SCard, Set.exists, h]

/-! ## `SPop` -/

theorem popLoop_eq (key : String) (l : List ι) (s : Set ι) (val : List ι) (n : Nat) (m : set ι)
    (hm : s.records key = some m) :
    popLoop key l s val ((n : Int) + 1)
      = (val ++ l.take (n + 1), s.put key (m \ (l.take (n + 1)).toFinset)) := by
  induction l generalizing s val n m with
  | nil => simp [popLoop, Set.put_self s key m hm]
  | cons k ks ih =>
    simp only [popLoop, add_sub_cancel_right, set.remove_singleton, Set.get_of_records s key m hm]
    cases n with
    | zero =>
      simp only [Nat.cast_zero, if_true, List.take_succ_cons, List.take_zero, zero_add]
      congr 2
      ext x; simp only [Finset.mem_erase, Finset.mem_sdiff, List.toFinset_cons,
        List.toFinset_nil, Finset.mem_insert, Finset.not_mem_empty, or_false]; tauto
    | succ n =>
      have hne : ((n + 1 : Nat) : Int) ≠ 0 := by omega
      rw [if_neg hne]
      have := ih (s.put key (m.erase k)) (val ++ [k]) n (m.erase k)
        (Set.put_records_same s key _)
      rw [Nat.cast_succ, this, Set.put_put]
      simp only [List.append_assoc, List.singleton_append, List.take_succ_cons]
      congr 2
      ext x; simp only [Finset.mem_erase, Finset.mem_sdiff, List.toFinset_cons,
        Finset.mem_insert]; tauto

theorem Set.SPop_of_present (ro : RangeOrder ι) (s : Set ι) (key : String) (count : Int)
    (m : set ι) (hm : s.records key = some m) (hcount : 0 < count) :
    s.SPop ro key count
      = ((ro.range m).take count.toNat,
          s.put key (m \ ((ro.range m).take count.toNat).toFinset)) := by
  obtain ⟨n, rfl⟩ : ∃ n : Nat, count = (n : Int) + 1 := ⟨(count - 1).toNat, by omega⟩
  have hn : ((n : Int) + 1).toNat = n + 1 := by omega
  have hex : s.exists key = true := by simp [Set.exists, hm]
  have hle : ¬ ((n : Int) + 1 ≤ 0) := by omega
  simp only [Set.SPop, hex, Bool.not_true, Bool.false_or, decide_eq_true_eq, hle, if_false,
    Set.get_of_records s key m hm, popLoop_eq key _ s [] n m hm, hn, List.nil_append]

theorem Set.SPop_of_absent (ro : RangeOrder ι) (s : Set ι) (key : String) (count : Int)
    (h : s.exists key = false ∨ count ≤ 0) : s.SPop ro key count = ([], s) := by
  unfold Set.SPop
  rcases h with h | h
  · simp [h]
  · simp [h]

/-- Claim C6.  Pop bound: if the key is present and `count > 0`, `SPop(key, count)`
returns exactly `min(count, c)` pairwise distinct elements (`c` the cardinality
before the call), each a member before the call and not after it, every other
member stays, and the cardinality after the call is `c` minus the returned
length; if the key is absent or `count <= 0` the result is empty and the
registry is unchanged. -/
theorem SPop_bound (ro : RangeOrder ι) (s : Set ι) (key : String) (count : Int) :
    (s.exists key = true → 0 < count →
      ((s.SPop ro key count).1.length : Int) = min count (s.SCard key) ∧
      (s.SPop ro key count).1.Nodup ∧
      (∀ x ∈ (s.SPop ro key count).1,
        s.SIsMember key x = true ∧ (s.SPop ro key count).2.SIsMember key x = false) ∧
      (∀ x, s.SIsMember key x = true → x ∉ (s.SPop ro key count).1 →
        (s.SPop ro key count).2.SIsMember key x = true) ∧
      (s.SPop ro key count).2.SCard key = s.SCard key - ((s.SPop ro key count).1.length : Int)) ∧
    ((s.exists key = false ∨ count ≤ 0) → s.SPop ro key count = ([], s)) := by
  refine ⟨?_, Set.SPop_of_absent ro s key count⟩
  intro hex hcount
  obtain ⟨m, hm⟩ := (Set.exists_iff s key).mp hex
  rw [Set.SPop_of_present ro s key count m hm hcount]
  have hsub : (ro.range m).take count.toNat ⊆ ro.range m := List.take_subset _ _
  have hnd : ((ro.range m).take count.toNat).Nodup :=
    (ro.range_nodup m).sublist (List.take_sublist _ _)
  have hlen : ((ro.range m).take count.toNat).length = min count.toNat m.card := by
    rw [List.length_take, ro.range_length]
  have hrec := Set.put_records_same s key (m \ ((ro.range m).take count.toNat).toFinset)
  refine ⟨?_, hnd, ?_, ?_, ?_⟩
  · rw [Set.SCard_of_records s key m hm]
    simp only [hlen]
    omega
  · intro x hx
    have hxm : x ∈ m := (ro.mem_range m x).mp (hsub hx)
    rw [Set.SIsMember_of_records s key m x hm, Set.SIsMember_of_records _ key _ x hrec]
    simp [hxm, hx]
  · intro x hx hnot
    rw [Set.SIsMember_of_records s key m x hm] at hx
    rw [Set.SIsMember_of_records _ key _ x hrec]
    simp at hx
    simp [hx, hnot]
  · rw [Set.SCard_of_records s key m hm, Set.SCard_of_records _ key _ hrec]
    have hsubset : ((ro.range m).take count.toNat).toFinset ⊆ m := by
      intro x hx
      exact (ro.mem_range m x).mp (hsub (List.mem_toFinset.mp hx))
    rw [Finset.card_sdiff hsubset, List.toFinset_card_of_nodup hnd]
    have : ((ro.range m).take count.toNat).length ≤ m.card := by
      rw [hlen]; exact min_le_right _ _
    simp only
    omega


/-- The scenario of `TestSet_SPop` as an instance of `SPop_bound`. -/
theorem SPop_bound_witness :
    three.exists "set" = true ∧ (0 : Int) < 2 ∧
    (((three.SPop roV "set" 2).1.length : Int) = min 2 (three.SCard "set") ∧
      (three.SPop roV "set" 2).1.Nodup ∧
      (∀ x ∈ (three.SPop roV "set" 2).1,
        three.SIsMember "set" x = true ∧ (three.SPop roV "set" 2).2.SIsMember "set" x = false) ∧
      (∀ x, three.SIsMember "set" x = true → x ∉ (three.SPop roV "set" 2).1 →
        (three.SPop roV "set" 2).2.SIsMember "set" x = true) ∧
      (three.SPop roV "set" 2).2.SCard "set"
        = three.SCard "set" - ((three.SPop roV "set" 2).1.length : Int)) ∧
    (three.exists "not_set" = false ∨ (1 : Int) ≤ 0) ∧
    three.SPop roV "not_set" 1 = ([], three) :=
  ⟨by decide, by decide, (SPop_bound roV three "set" 2).1 (by decide) (by decide),
    Or.inl (by decide), (SPop_bound roV three "not_set" 1).2 (Or.inl (by decide))⟩

/-! ## `SRandMember` -/

theorem randLoop_eq (count : Int) (l val : List ι) (h : (val.length : Int) < count) :
    randLoop count l val = val ++ l.take (count.toNat - val.length) := by
  induction l generalizing val with
  | nil => simp [randLoop]
  | cons k ks ih =>
    simp only [randLoop, List.length_append, List.length_singleton, Nat.cast_add, Nat.cast_one]
    by_cases hc : (val.length : Int) + 1 = count
    · rw [if_pos hc]
      have : count.toNat - val.length = 1 := by omega
      rw [this]; simp
    · rw [if_neg hc]
      have hlt : (((val ++ [k]).length : Nat) : Int) < count := by
        simp only [List.length_append, List.length_singleton, Nat.cast_add, Nat.cast_one]
        omega
      rw [ih (val ++ [k]) hlt]
      have : count.toNat - val.length = (count.toNat - (val ++ [k]).length) + 1 := by
        simp only [List.length_append, List.length_singleton]
        omega
      rw [this]; simp

theorem Set.SRandMember_pos (ro : RangeOrder ι) (nil : ι) (s : Set ι) (key : String)
    (count : Int) (m : set ι) (hm : s.records key = some m) (hcount : 0 < count) :
    s.SRandMember ro nil key count = ((ro.range m).take count.toNat, s) := by
  have hex : s.exists key = true := by simp [Set.exists, hm]
  have hne : count ≠ 0 := by omega
  simp only [Set.SRandMember, hex, Bool.not_true, Bool.false_or, decide_eq_true_eq, hne,
    if_false, gt_iff_lt, hcount, if_true, Set.get_of_records s key m hm]
  rw [randLoop_eq count _ [] (by simpa using hcount)]
  simp

/-- Claim C7.  `SRandMember` with a positive count samples without duplicates and
without mutation: for a present key of cardinality `c` and `count > 0` it
returns `min(count, c)` elements, pairwise distinct, each a member of the
key's set, and leaves the registry unchanged. -/
theorem SRandMember_positive_count (ro : RangeOrder ι) (nil : ι) (s : Set ι) (key : String)
    (count : Int) (hkey : s.exists key = true) (hcount : 0 < count) :
    ((s.SRandMember ro nil key count).1.length : Int) = min count (s.SCard key) ∧
    (s.SRandMember ro nil key count).1.Nodup ∧
    (∀ x ∈ (s.SRandMember ro nil key count).1, s.SIsMember key x = true) ∧
    (s.SRandMember ro nil key count).2 = s := by
  obtain ⟨m, hm⟩ := (Set.exists_iff s key).mp hkey
  rw [Set.SRandMember_pos ro nil s key count m hm hcount]
  refine ⟨?_, (ro.range_nodup m).sublist (List.take_sublist _ _), ?_, rfl⟩
  · rw [Set.SCard_of_records s key m hm]
    simp only [List.length_take, ro.range_length]
    omega
  · intro x hx
    rw [Set.SIsMember_of_records s key m x hm]
    simpa using (ro.mem_range m x).mp (List.take_subset _ _ hx)

/-- An instance of `SRandMember_positive_count`: five asked of three members. -/
theorem SRandMember_positive_count_witness :
    three.exists "set" = true ∧ (0 : Int) < 5 ∧
    ((three.SRandMember roV ⊥ "set" 5).1.length : Int) = min 5 (three.SCard "set") ∧
    (three.SRandMember roV ⊥ "set" 5).1.Nodup ∧
    (∀ x ∈ (three.SRandMember roV ⊥ "set" 5).1, three.SIsMember "set" x = true) ∧
    (three.SRandMember roV ⊥ "set" 5).2 = three :=
  ⟨by decide, by decide,
    SRandMember_positive_count roV ⊥ three "set" 5 (by decide) (by decide)⟩

theorem wrapInt_neg (count : Int) (hmin : minInt < count) (hneg : count < 0) :
    wrapInt (-count) = -count := by
  simp only [wrapInt, minInt, intBits] at *
  norm_num at *
  omega

theorem randomLoop_length (ro : RangeOrder ι) (nil : ι) (m : set ι) (n i : Nat) (val : List ι) :
    (randomLoop ro nil m n i val).length = val.length + n := by
  induction n generalizing i val with
  | zero => simp [randomLoop]
  | succ n ih => simp [randomLoop, ih]; omega

theorem randomVal_mem (ro : RangeOrder ι) (nil : ι) (m : set ι) (h : m.Nonempty) :
    randomVal ro nil m ∈ m := by
  unfold randomVal
  cases hr : ro.range m with
  | nil =>
    obtain ⟨x, hx⟩ := h
    have := (ro.mem_range m x).mpr hx
    rw [hr] at this
    simp at this
  | cons k ks =>
    exact (ro.mem_range m k).mp (by rw [hr]; simp)

theorem randomVal_empty (ro : RangeOrder ι) (nil : ι) : randomVal ro nil ∅ = nil := by
  simp [randomVal, ro.range_empty]

theorem randomLoop_mem (ro : RangeOrder ι) (nil : ι) (m : set ι) (h : m.Nonempty) (n i : Nat)
    (val : List ι) (hval : ∀ x ∈ val, x ∈ m) : ∀ x ∈ randomLoop ro nil m n i val, x ∈ m := by
  induction n generalizing i val with
  | zero => simpa [randomLoop] using hval
  | succ n ih =>
    simp only [randomLoop]
    apply ih
    intro x hx
    rcases List.mem_append.mp hx with hx | hx
    · exact hval x hx
    · rw [List.mem_singleton] at hx
      rw [hx]
      exact randomVal_mem _ nil m h

theorem randomLoop_empty (ro : RangeOrder ι) (nil : ι) (n i : Nat) (val : List ι) :
    randomLoop ro nil ∅ n i val = val ++ List.replicate n nil := by
  induction n generalizing i val with
  | zero => simp [randomLoop]
  | succ n ih => simp [randomLoop, ih, randomVal_empty, List.replicate_succ]

theorem Set.SRandMember_neg (ro : RangeOrder ι) (nil : ι) (s : Set ι) (key : String)
    (count : Int) (m : set ι) (hm : s.records key = some m) (hcount : count < 0) :
    s.SRandMember ro nil key count
      = (randomLoop ro nil m (wrapInt (-count)).toNat 0 [], s) := by
  have hex : s.exists key = true := by simp [Set.exists, hm]
  have hne : count ≠ 0 := by omega
  have hnp : ¬ (0 < count) := by omega
  simp only [Set.SRandMember, hex, Bool.not_true, Bool.false_or, decide_eq_true_eq, hne,
    if_false, gt_iff_lt, hnp, Set.get_of_records s key m hm]

theorem Set.SRandMember_neg_length (ro : RangeOrder ι) (nil : ι) (s : Set ι) (key : String)
    (count : Int) (hkey : s.exists key = true) (hmin : minInt < count) (hneg : count < 0) :
    ((s.SRandMember ro nil key count).1.length : Int) = |count| := by
  obtain ⟨m, hm⟩ := (Set.exists_iff s key).mp hkey
  rw [Set.SRandMember_neg ro nil s key count m hm hneg, randomLoop_length,
    wrapInt_neg count hmin hneg, abs_of_neg hneg]
  simp only [List.length_nil, zero_add]
  omega

theorem Set.SRandMember_zero_or_absent (ro : RangeOrder ι) (nil : ι) (s : Set ι) (key : String)
    (count : Int) (h : s.exists key = false ∨ count = 0) :
    s.SRandMember ro nil key count = ([], s) := by
  unfold Set.SRandMember
  rcases h with h | h <;> simp [h]

theorem Set.SRandMember_neg_mem (ro : RangeOrder ι) (nil : ι) (s : Set ι) (key : String)
    (count : Int) (hne : 0 < s.SCard key) (hneg : count < 0) :
    ∀ x ∈ (s.SRandMember ro nil key count).1, s.SIsMember key x = true := by
  cases hm : s.records key with
  | none => rw [Set.SCard_of_absent s key hm] at hne; omega
  | some m =>
    rw [Set.SCard_of_records s key m hm] at hne
    have hnon : m.Nonempty := Finset.card_pos.mp (by exact_mod_cast hne)
    rw [Set.SRandMember_neg ro nil s key count m hm hneg]
    intro x hx
    rw [Set.SIsMember_of_records s key m x hm]
    simpa using randomLoop_mem ro nil m hnon _ 0 [] (by simp) x hx

/-- Claim C8, evaluated where it fails.  For the present key `set` and the most
negative `int` as count, `count = -count` overflows back to the same negative
value, the loop `for count > 0` does not run, and `SRandMember` returns the
empty sequence, whose length is not `|count| = 2^63`. -/
theorem SRandMember_minInt_returns_nothing :
    three.exists "set" = true ∧ minInt < 0 ∧ |minInt| = 9223372036854775808 ∧
    (three.SRandMember roV ⊥ "set" minInt).1 = [] := by
  refine ⟨by decide, by decide, by decide, ?_⟩
  rw [Set.SRandMember_neg roV ⊥ three "set" minInt _ rfl (by decide)]
  rfl

/-- Claim C9, evaluated where it fails.  For a key that is present with a set that
has become empty, `SRandMember(key, -2)` returns two `nil` entries, and `nil`
is not a member of the key's set. -/
theorem SRandMember_of_emptied_set_returns_nil :
    emptied.SKeyExists "set" = true ∧ emptied.SCard "set" = 0 ∧
    (emptied.SRandMember roV ⊥ "set" (-2)).1 = [⊥, ⊥] ∧
    emptied.SIsMember "set" ⊥ = false := by
  refine ⟨by decide, by decide, ?_, by decide⟩
  have h : emptied.records "set" = some ∅ := by decide
  rw [Set.SRandMember_neg roV ⊥ emptied "set" (-2) ∅ h (by decide), randomLoop_empty]
  decide


/-! ## `SAdd` -/

theorem Set.SAdd_eq (s : Set ι) (key : String) (member : ι) :
    s.SAdd key member
      = (((insert member (s.get key)).card : Int), s.put key (insert member (s.get key))) := by
  unfold Set.SAdd
  cases h : s.records key with
  | none =>
    simp [Set.exists, h, Set.get, Set.put, newSet, set.add_singleton, set.size]
  | some m =>
    simp [Set.exists, h, Set.get, Set.put, set.add_singleton, set.size]

/-- Claim C10.  `SAdd` returns the new cardinality and is idempotent: it returns
`c` when the member was already in the key's set and `c + 1` otherwise (`c` the
prior cardinality, 0 for an absent key), which is the cardinality of the key
after the call; afterwards the key is present, the member is in its set, all
prior members remain, every other key is unchanged, and adding the same member
again returns the same cardinality. -/
theorem SAdd_cardinality (s : Set ι) (key : String) (member : ι) :
    (s.SAdd key member).1
      = (if s.SIsMember key member = true then s.SCard key else s.SCard key + 1) ∧
    (s.SAdd key member).1 = (s.SAdd key member).2.SCard key ∧
    (s.SAdd key member).2.SKeyExists key = true ∧
    (s.SAdd key member).2.SIsMember key member = true ∧
    (∀ x, s.SIsMember key x = true → (s.SAdd key member).2.SIsMember key x = true) ∧
    (∀ k, k ≠ key → (s.SAdd key member).2.records k = s.records k) ∧
    ((s.SAdd key member).2.SAdd key member).1 = (s.SAdd key member).1 := by
  have hrec := Set.put_records_same s key (insert member (s.get key))
  refine ⟨?_, ?_, ?_, ?_, ?_, ?_, ?_⟩
  · rw [Set.SAdd_eq]
    cases h : s.records key with
    | none =>
      simp [Set.SIsMember, Set.fieldExists, h, Set.SCard_of_absent s key h, Set.get]
    | some m =>
      rw [Set.SIsMember_of_records s key m member h, Set.SCard_of_records s key m h,
        Set.get_of_records s key m h]
      by_cases hmem : member ∈ m
      · simp [hmem]
      · simp [hmem, Finset.card_insert_of_not_mem]
  · rw [Set.SAdd_eq, Set.SCard_of_records _ key _ hrec]
  · rw [Set.SAdd_eq]
    simp [Set.SKeyExists, Set.exists, hrec]
  · rw [Set.SAdd_eq, Set.SIsMember_of_records _ key _ member hrec]
    simp
  · intro x hx
    obtain ⟨m, hm, hxm⟩ := (Set.SIsMember_iff s key x).mp hx
    rw [Set.SAdd_eq, Set.SIsMember_of_records _ key _ x hrec, Set.get_of_records s key m hm]
    simp [hxm]
  · intro k hk
    rw [Set.SAdd_eq]
    exact Set.put_records_ne s _ hk
  · rw [Set.SAdd_eq, Set.SAdd_eq, Set.get_put_same]
    simp

/-- The scenario of `TestSet_SAdd`, and adding `b` once more, from `SAdd_cardinality`. -/
theorem SAdd_cardinality_witness :
    (((New : Set String).SAdd "set" "a").2.SAdd "set" "b").1 = 2 ∧
    ((((New : Set String).SAdd "set" "a").2.SAdd "set" "b").2.SAdd "set" "b").1 = 2 := by
  have h := SAdd_cardinality ((New : Set String).SAdd "set" "a").2 "set" "b"
  refine ⟨?_, ?_⟩
  · rw [h.1]; decide
  · rw [h.2.2.2.2.2.2, h.1]; decide

/-! ## Scenarios of the test file -/

theorem union_eq (ro : RangeOrder ι) (set1 set2 : set ι) (sets : List (set ι)) :
    union ro set1 set2 sets = sets.foldl (fun u t => u ∪ t) (set1 ∪ set2) := by
  simp only [union, set.copy_eq, set.each_add_eq, unionRest_eq]

theorem difference_eq (ro : RangeOrder ι) (set1 set2 : set ι) (sets : List (set ι)) :
    difference ro set1 set2 sets = sets.foldl (fun s t => s \ t) (set1 \ set2) := by
  simp only [difference, set.copy_eq, set.Separate_eq, differenceRest_eq]

/-- The assertion of `TestSet_SUnion`: the union of two keys holding the same
three members has length 3. -/
theorem TestSet_SUnion_length :
    (fixUnion.SUnion ro0 ["set", "set2"]).map List.length = some 3 := by
  rw [Set.SUnion_of_collect ro0 fixUnion _ {"member_3", "member_2", "member_1"}
    {"member_3", "member_2", "member_1"} [] (by decide)]
  simp only [Option.map_some', RangeOrder.range_length, union_eq]
  decide

/-- The assertions of `TestSet_SDiff`: the difference of the two keys has length 2
and `SDiff` of the single key has length 3. -/
theorem TestSet_SDiff_lengths :
    (fixDiff.SDiff ro0 ["set", "set2"]).map List.length = some 2 ∧
    (fixDiff.SDiff ro0 ["set"]).map List.length = some 3 := by
  constructor
  · rw [Set.SDiff_of_collect ro0 fixDiff _ {"member_3", "member_2", "member_1"}
      {"member_5", "member_4", "member_1"} [] (by decide)]
    simp only [Option.map_some', RangeOrder.range_length, difference_eq]
    decide
  · rw [Set.SDiff_single ro0 fixDiff "set" {"member_3", "member_2", "member_1"} (by decide)]
    simp only [Option.map_some', RangeOrder.range_length]
    decide


/-! ## `SRem` and `SMove` -/

theorem Set.SRem_eq (s : Set ι) (key : String) (member : ι) :
    s.SRem key member
      = if s.SIsMember key member = true then (true, s.put key ((s.get key).erase member))
        else (false, s) := by
  unfold Set.SRem
  cases h : s.records key with
  | none => simp [Set.exists, h, Set.SIsMember, Set.fieldExists]
  | some m =>
    by_cases hm : member ∈ m <;>
      simp [Set.exists, h, Set.SIsMember, Set.fieldExists, Set.get, set.has_singleton,
        set.remove_singleton, hm]

theorem Set.SIsMember_false_of_absent (s : Set ι) (key : String) (x : ι)
    (h : s.records key = none) : s.SIsMember key x = false := by
  simp [Set.SIsMember, Set.fieldExists, h]

/-- Claim C11.  `SRem` reports whether it removed something: it returns true
exactly when the key is present and the member is in its set before the call;
after the call the member is not in the key's set, every other member of that
set and every other key are unchanged, when it returns false the registry is
unchanged, and a second `SRem` of the same member returns false. -/
theorem SRem_reports_removal (s : Set ι) (key : String) (member : ι) :
    ((s.SRem key member).1 = true
      ↔ s.SKeyExists key = true ∧ s.SIsMember key member = true) ∧
    (s.SRem key member).2.SIsMember key member = false ∧
    (∀ x, x ≠ member → (s.SRem key member).2.SIsMember key x = s.SIsMember key x) ∧
    (∀ k, k ≠ key → (s.SRem key member).2.records k = s.records k) ∧
    ((s.SRem key member).1 = false → (s.SRem key member).2 = s) ∧
    ((s.SRem key member).2.SRem key member).1 = false := by
  have hex : s.SIsMember key member = true → s.SKeyExists key = true := by
    intro h
    obtain ⟨m, hm, _⟩ := (Set.SIsMember_iff s key member).mp h
    simp [Set.SKeyExists, Set.exists, hm]
  have hgone : (s.SRem key member).2.SIsMember key member = false := by
    rw [Set.SRem_eq]
    by_cases h : s.SIsMember key member = true
    · rw [if_pos h, Set.SIsMember_of_records _ key _ member (Set.put_records_same s key _)]
      simp
    · rw [if_neg h]
      simpa using h
  refine ⟨?_, hgone, ?_, ?_, ?_, ?_⟩
  · rw [Set.SRem_eq]
    by_cases h : s.SIsMember key member = true
    · simp [h, hex h]
    · simp [h]
  · intro x hx
    rw [Set.SRem_eq]
    by_cases h : s.SIsMember key member = true
    · rw [if_pos h]
      obtain ⟨m, hm, _⟩ := (Set.SIsMember_iff s key member).mp h
      rw [Set.SIsMember_of_records _ key _ x (Set.put_records_same s key _),
        Set.SIsMember_of_records s key m x hm, Set.get_of_records s key m hm]
      simp [hx]
    · rw [if_neg h]
  · intro k hk
    rw [Set.SRem_eq]
    by_cases h : s.SIsMember key member = true
    · rw [if_pos h]
      exact Set.put_records_ne s _ hk
    · rw [if_neg h]
  · rw [Set.SRem_eq]
    by_cases h : s.SIsMember key member = true
    · simp [h]
    · simp [h]
  · rw [Set.SRem_eq (s.SRem key member).2, hgone]
    simp

/-- The call sequence of `TestSet_SRem` on members 1 to 3: removing member 1, member 1
again, member 2, member 3 and member 4 returns true, false, true, true, false. -/
theorem SRem_reports_removal_witness :
    (three.SRem "set" (Value.str "member_1")).1 = true ∧
    ((three.SRem "set" (Value.str "member_1")).2.SRem "set" (Value.str "member_1")).1 =
      false ∧
    (((three.SRem "set" (Value.str "member_1")).2.SRem "set" (Value.str "member_1")).2.SRem
      "set" (Value.str "member_2")).1 = true ∧
    ((((three.SRem "set" (Value.str "member_1")).2.SRem "set" (Value.str "member_1")).2.SRem
      "set" (Value.str "member_2")).2.SRem "set" (Value.str "member_3")).1 = true ∧
    (((((three.SRem "set" (Value.str "member_1")).2.SRem "set" (Value.str
      "member_1")).2.SRem "set" (Value.str "member_2")).2.SRem "set" (Value.str
      "member_3")).2.SRem "set" (Value.str "member_4")).1 = false := by
  refine ⟨?_, (SRem_reports_removal three "set" (Value.str "member_1")).2.2.2.2.2, ?_, ?_, ?_⟩ <;>
    decide

theorem Set.SMove_eq (s : Set ι) (src dst : String) (member : ι)
    (h : s.SIsMember src member = true) :
    s.SMove src dst member
      = (true, (s.put src ((s.get src).erase member)).put dst
          (insert member ((s.put src ((s.get src).erase member)).get dst))) := by
  obtain ⟨m, hm, hmem⟩ := (Set.SIsMember_iff s src member).mp h
  have hf : s.fieldExists src member = true := h
  unfold Set.SMove
  simp only [hf, Bool.not_true, Bool.false_eq_true, if_false, set.remove_singleton,
    set.add_singleton]
  cases hd : s.records dst with
  | some d => simp [Set.exists, hd]
  | none =>
    have hne : src ≠ dst := by
      rintro rfl
      rw [hm] at hd
      exact absurd hd (by simp)
    have hne' : dst ≠ src := fun e => hne e.symm
    simp only [Set.exists, hd, Option.isSome_none, Bool.not_false, if_true, Prod.mk.injEq,
      true_and]
    apply Set.ext_records
    funext k
    by_cases hk : k = dst
    · subst hk
      simp [Set.put, Set.get, Function.update_noteq hne', hd, newSet]
    · by_cases hk2 : k = src
      · subst hk2
        simp [Set.put, Set.get, Function.update_noteq hk, Function.update_noteq hne]
      · simp [Set.put, Function.update_noteq hk, Function.update_noteq hk2]

theorem Set.SMove_of_not_member (s : Set ι) (src dst : String) (member : ι)
    (h : s.SIsMember src member = false) : s.SMove src dst member = (false, s) := by
  have hf : s.fieldExists src member = false := h
  unfold Set.SMove
  simp [hf]

/-- Claim C12.  `SMove` precondition: if the member is not in the set of `src`
(which includes an absent `src`), `SMove(src, dst, member)` returns false and
the registry is unchanged; in particular an absent `dst` is not created. -/
theorem SMove_precondition (s : Set ι) (src dst : String) (member : ι)
    (h : s.SIsMember src member = false) :
    s.SMove src dst member = (false, s) ∧
    (s.SKeyExists dst = false → (s.SMove src dst member).2.SKeyExists dst = false) := by
  rw [Set.SMove_of_not_member s src dst member h]
  exact ⟨rfl, id⟩

/-- Claim C13.  `SMove` success: if the member is in the set of `src`, the call
returns true; afterwards `dst` is present and holds the member, and every key
other than `src` and `dst` is unchanged; when `src` and `dst` differ the member
is no longer in `src`, the cardinality of `src` has dropped by one and all
other members of `src` and `dst` are as before; when `src` and `dst` are the
same key the registry is unchanged. -/
theorem SMove_success (s : Set ι) (src dst : String) (member : ι)
    (h : s.SIsMember src member = true) :
    (s.SMove src dst member).1 = true ∧
    (s.SMove src dst member).2.SKeyExists dst = true ∧
    (s.SMove src dst member).2.SIsMember dst member = true ∧
    (∀ k, k ≠ src → k ≠ dst → (s.SMove src dst member).2.records k = s.records k) ∧
    (src ≠ dst →
      (s.SMove src dst member).2.SIsMember src member = false ∧
      (s.SMove src dst member).2.SCard src = s.SCard src - 1 ∧
      ∀ x, x ≠ member →
        (s.SMove src dst member).2.SIsMember src x = s.SIsMember src x ∧
        (s.SMove src dst member).2.SIsMember dst x = s.SIsMember dst x) ∧
    (src = dst → (s.SMove src dst member).2 = s) := by
  obtain ⟨m, hm, hmem⟩ := (Set.SIsMember_iff s src member).mp h
  rw [Set.SMove_eq s src dst member h, Set.get_of_records s src m hm]
  have hdst := Set.put_records_same (s.put src (m.erase member)) dst
    (insert member ((s.put src (m.erase member)).get dst))
  refine ⟨rfl, ?_, ?_, ?_, ?_, ?_⟩
  · simp [Set.SKeyExists, Set.exists, hdst]
  · rw [Set.SIsMember_of_records _ dst _ member hdst]
    simp
  · intro k hk1 hk2
    simp only
    rw [Set.put_records_ne _ _ hk2, Set.put_records_ne _ _ hk1]
  · intro hne
    have hsrc : ((s.put src (m.erase member)).put dst
        (insert member ((s.put src (m.erase member)).get dst))).records src
          = some (m.erase member) := by
      rw [Set.put_records_ne _ _ hne, Set.put_records_same]
    refine ⟨?_, ?_, ?_⟩
    · rw [Set.SIsMember_of_records _ src _ member hsrc]
      simp
    · rw [Set.SCard_of_records _ src _ hsrc, Set.SCard_of_records s src m hm,
        Finset.card_erase_of_mem hmem]
      have : 0 < m.card := Finset.card_pos.mpr ⟨member, hmem⟩
      omega
    · intro x hx
      constructor
      · rw [Set.SIsMember_of_records _ src _ x hsrc, Set.SIsMember_of_records s src m x hm]
        simp [hx]
      · rw [Set.SIsMember_of_records _ dst _ x hdst]
        have hget : (s.put src (m.erase member)).get dst = s.get dst := by
          simp [Set.get, Set.put_records_ne s (m.erase member) (fun e => hne e.symm)]
        rw [hget]
        cases hd : s.records dst with
        | none => simp [Set.get, hd, Set.SIsMember_false_of_absent s dst x hd, hx]
        | some d =>
          rw [Set.SIsMember_of_records s dst d x hd, Set.get_of_records s dst d hd]
          simp [hx]
  · rintro rfl
    simp only
    rw [Set.get_put_same, Set.put_put, Finset.insert_erase hmem]
    exact Set.put_self s src m hm

/-- An instance of `SMove_precondition`: moving a member that `set` does not hold. -/
theorem SMove_precondition_witness :
    fixDiff.SIsMember "set" "member_4" = false ∧
    fixDiff.SMove "set" "other" "member_4" = (false, fixDiff) ∧
    (fixDiff.SKeyExists "other" = false →
      (fixDiff.SMove "set" "other" "member_4").2.SKeyExists "other" = false) :=
  ⟨by decide, SMove_precondition fixDiff "set" "other" "member_4" (by decide)⟩

/-- Instances of `SMove_success`: member 2 moved from `set` to `set2`, and from
`set` to itself. -/
theorem SMove_success_witness :
    fixDiff.SIsMember "set" "member_2" = true ∧
    (fixDiff.SMove "set" "set2" "member_2").1 = true ∧
    (fixDiff.SMove "set" "set2" "member_2").2.SIsMember "set2" "member_2" = true ∧
    ("set" ≠ "set2" →
      (fixDiff.SMove "set" "set2" "member_2").2.SIsMember "set" "member_2" = false ∧
      (fixDiff.SMove "set" "set2" "member_2").2.SCard "set" = fixDiff.SCard "set" - 1 ∧
      ∀ x, x ≠ "member_2" →
        (fixDiff.SMove "set" "set2" "member_2").2.SIsMember "set" x = fixDiff.SIsMember "set" x ∧
        (fixDiff.SMove "set" "set2" "member_2").2.SIsMember "set2" x
          = fixDiff.SIsMember "set2" x) ∧
    (fixDiff.SMove "set" "set" "member_2").2 = fixDiff :=
  ⟨by decide, (SMove_success fixDiff "set" "set2" "member_2" (by decide)).1,
    (SMove_success fixDiff "set" "set2" "member_2" (by decide)).2.2.1,
    (SMove_success fixDiff "set" "set2" "member_2" (by decide)).2.2.2.2.1,
    (SMove_success fixDiff "set" "set" "member_2" (by decide)).2.2.2.2.2 rfl⟩

/-! ## The store variants -/

theorem RangeOrder.range_perm (ro ro' : RangeOrder ι) (m : Finset ι) :
    (ro.range m).Perm (ro'.range m) := by
  apply List.perm_of_nodup_nodup_toFinset_eq (ro.range_nodup m) (ro'.range_nodup m)
  rw [ro.range_toFinset, ro'.range_toFinset]

theorem intersection_eq (ro ro' : RangeOrder ι) (set1 set2 : set ι) (sets : List (set ι)) :
    intersection ro set1 set2 sets = intersection ro' set1 set2 sets := by
  ext x
  rw [mem_intersection, mem_intersection]

theorem Set.SUnion_perm (ro ro' : RangeOrder ι) (s : Set ι) (keys : List String)
    (un : List ι) (h : s.SUnion ro keys = some un) :
    ∃ un', s.SUnion ro' keys = some un' ∧ un.Perm un' := by
  match keys with
  | [] =>
    refine ⟨[], rfl, ?_⟩
    simp only [Set.SUnion, Option.some.injEq] at h
    rw [← h]
  | [k] =>
    simp only [Set.SUnion, set.list_eq] at h ⊢
    split at h
    · next hk =>
      simp only [Option.some.injEq] at h
      refine ⟨ro'.range (s.get k), by simp [hk], ?_⟩
      rw [← h]
      exact ro.range_perm ro' _
    · next hk =>
      simp only [Option.some.injEq] at h
      refine ⟨[], by simp [hk], ?_⟩
      rw [← h]
  | k1 :: k2 :: ks =>
    match hc : s.collect (k1 :: k2 :: ks) with
    | [] => simp [Set.SUnion, hc] at h
    | [a] => simp [Set.SUnion, hc] at h
    | a :: b :: rest =>
      rw [Set.SUnion_of_collect ro s _ a b rest hc] at h
      simp only [Option.some.injEq] at h
      refine ⟨_, Set.SUnion_of_collect ro' s _ a b rest hc, ?_⟩
      rw [← h, union_eq, union_eq]
      exact RangeOrder.range_perm _ _ _

theorem Set.SDiff_perm (ro ro' : RangeOrder ι) (s : Set ι) (keys : List String)
    (diff : List ι) (h : s.SDiff ro keys = some diff) :
    ∃ diff', s.SDiff ro' keys = some diff' ∧ diff.Perm diff' := by
  match keys with
  | [] =>
    refine ⟨[], rfl, ?_⟩
    simp only [Set.SDiff, Option.some.injEq] at h
    rw [← h]
  | [k] =>
    simp only [Set.SDiff, set.list_eq] at h ⊢
    split at h
    · next hk =>
      simp only [Option.some.injEq] at h
      refine ⟨ro'.range (s.get k), by simp [hk], ?_⟩
      rw [← h]
      exact ro.range_perm ro' _
    · next hk =>
      simp only [Option.some.injEq] at h
      refine ⟨[], by simp [hk], ?_⟩
      rw [← h]
  | k1 :: k2 :: ks =>
    match hc : s.collect (k1 :: k2 :: ks) with
    | [] => simp [Set.SDiff, hc] at h
    | [a] => simp [Set.SDiff, hc] at h
    | a :: b :: rest =>
      rw [Set.SDiff_of_collect ro s _ a b rest hc] at h
      simp only [Option.some.injEq] at h
      refine ⟨_, Set.SDiff_of_collect ro' s _ a b rest hc, ?_⟩
      rw [← h, difference_eq, difference_eq]
      exact RangeOrder.range_perm _ _ _

theorem Set.SInter_perm (ro ro' : RangeOrder ι) (s : Set ι) (keys : List String)
    (m : List ι) (h : s.SInter ro keys = some m) :
    ∃ m', s.SInter ro' keys = some m' ∧ m.Perm m' := by
  match keys with
  | [] =>
    refine ⟨[], rfl, ?_⟩
    simp only [Set.SInter, Option.some.injEq] at h
    rw [← h]
  | [k] =>
    simp only [Set.SInter, set.list_eq] at h ⊢
    split at h
    · next hk =>
      simp only [Option.some.injEq] at h
      refine ⟨ro'.range (s.get k), by simp [hk], ?_⟩
      rw [← h]
      exact ro.range_perm ro' _
    · next hk =>
      simp only [Option.some.injEq] at h
      refine ⟨[], by simp [hk], ?_⟩
      rw [← h]
  | k1 :: k2 :: ks =>
    match hc : s.collect (k1 :: k2 :: ks) with
    | [] => simp [Set.SInter, hc] at h
    | [a] => simp [Set.SInter, hc] at h
    | a :: b :: rest =>
      rw [Set.SInter_of_collect ro s _ a b rest hc] at h
      simp only [Option.some.injEq] at h
      refine ⟨_, Set.SInter_of_collect ro' s _ a b rest hc, ?_⟩
      rw [← h, intersection_eq (ro.sub 0) (ro'.sub 0)]
      exact RangeOrder.range_perm _ _ _

theorem Set.addAll_nil (s : Set ι) (key : String) : s.addAll key [] = s := rfl

theorem Set.addAll_cons (s : Set ι) (key : String) (x : ι) (xs : List ι) :
    s.addAll key (x :: xs) = (s.put key (insert x (s.get key))).addAll key xs := by
  simp [Set.addAll, Set.SAdd_eq]

theorem Set.addAll_eq (s : Set ι) (key : String) (un : List ι) (h : un ≠ []) :
    s.addAll key un = s.put key (s.get key ∪ un.toFinset) := by
  induction un generalizing s with
  | nil => exact absurd rfl h
  | cons x xs ih =>
    rw [Set.addAll_cons]
    cases xs with
    | nil =>
      rw [Set.addAll_nil]
      congr 1
      ext y; simp only [Finset.mem_insert, Finset.mem_union, List.toFinset_cons,
        List.toFinset_nil, Finset.not_mem_empty, or_false]; tauto
    | cons y ys =>
      rw [ih _ (by simp), Set.get_put_same, Set.put_put]
      congr 1
      ext z; simp only [Finset.mem_insert, Finset.mem_union, List.toFinset_cons]; tauto

theorem Set.addAll_SIsMember (s : Set ι) (key : String) (un : List ι) (x : ι) :
    (s.addAll key un).SIsMember key x = true ↔ s.SIsMember key x = true ∨ x ∈ un := by
  cases un with
  | nil => simp [Set.addAll_nil]
  | cons y ys =>
    rw [Set.addAll_eq s key _ (by simp),
      Set.SIsMember_of_records _ key _ x (Set.put_records_same s key _)]
    cases hk : s.records key with
    | none => simp [Set.get, hk, Set.SIsMember_false_of_absent s key x hk]
    | some m =>
      rw [Set.SIsMember_of_records s key m x hk, Set.get_of_records s key m hk]
      simp only [decide_eq_true_eq, Finset.mem_union, List.mem_toFinset]

theorem Set.addAll_records_ne (s : Set ι) (key k : String) (un : List ι) (hk : k ≠ key) :
    (s.addAll key un).records k = s.records k := by
  cases un with
  | nil => rfl
  | cons y ys =>
    rw [Set.addAll_eq s key _ (by simp)]
    exact Set.put_records_ne s _ hk

theorem Set.addAll_records_of_present (s : Set ι) (key : String) (un : List ι) (m : set ι)
    (hm : s.records key = some m) :
    (s.addAll key un).records key = some (m ∪ un.toFinset) := by
  cases un with
  | nil => simpa [Set.addAll_nil] using hm
  | cons y ys =>
    rw [Set.addAll_eq s key _ (by simp), Set.put_records_same, Set.get_of_records s key m hm]

theorem Set.SUnion_single (ro : RangeOrder ι) (s : Set ι) (k : String) (base : set ι)
    (h : s.records k = some base) : s.SUnion ro [k] = some (ro.range base) := by
  simp [Set.SUnion, Set.exists, Set.get, h, set.list_eq]

theorem Set.SUnion_isSome_iff (ro : RangeOrder ι) (s : Set ι) (keys : List String) :
    (s.SUnion ro keys).isSome = true
      ↔ keys.length ≤ 1 ∨ 2 ≤ (keys.filter (fun k => s.exists k)).length := by
  match keys with
  | [] => simp [Set.SUnion]
  | [k] =>
    by_cases hk : s.exists k = true <;> simp [Set.SUnion, hk]
  | k1 :: k2 :: ks =>
    have h := Set.SUnion_eq_none_iff ro s (k1 :: k2 :: ks) (by simp)
    rw [Option.isSome_iff_ne_none, Ne, h]
    simp only [List.length_cons]
    omega

/-- Claim C14.  `SUnionStore` returns the size of the computed union, not of the
destination.  `SUnion` returns exactly for no keys, one key, or at least two
present keys; whenever it returns `un` (under any iteration order),
`SUnionStore(dest, keys...)` returns the length of `un`, afterwards the set of
`dest` holds exactly its prior members and the elements of `un`, and every
other key is unchanged.  The returned size is not in general the cardinality
of `dest` after the call: storing the union of `set` (3 members) into `set2`
returns 3 while `set2` then has 5 members. -/
theorem SUnionStore_returns_union_size (ro ro' : RangeOrder ι) (s : Set ι) (dest : String)
    (keys : List String) :
    ((s.SUnion ro' keys).isSome = true
      ↔ keys.length ≤ 1 ∨ 2 ≤ (keys.filter (fun k => s.exists k)).length) ∧
    (∀ un, s.SUnion ro' keys = some un →
      ∃ r, s.SUnionStore ro dest keys = some r ∧ r.1 = (un.length : Int) ∧
        (∀ x, r.2.SIsMember dest x = true ↔ s.SIsMember dest x = true ∨ x ∈ un) ∧
        ∀ k, k ≠ dest → r.2.records k = s.records k) ∧
    ∃ r, fixDiff.SUnionStore ro0 "set2" ["set"] = some r ∧ r.1 = 3 ∧ r.2.SCard "set2" = 5 := by
  refine ⟨Set.SUnion_isSome_iff ro' s keys, ?_, ?_⟩
  · intro un hun
    obtain ⟨un', hun', hperm⟩ := Set.SUnion_perm ro' ro s keys un hun
    refine ⟨((un'.length : Int), s.addAll dest un'), by simp [Set.SUnionStore, hun'], ?_, ?_, ?_⟩
    · simp [hperm.length_eq]
    · intro x
      rw [Set.addAll_SIsMember, hperm.mem_iff]
    · intro k hk
      exact Set.addAll_records_ne s dest k un' hk
  · have h1 : fixDiff.records "set" = some {"member_3", "member_2", "member_1"} := by decide
    have h2 : fixDiff.records "set2" = some {"member_5", "member_4", "member_1"} := by decide
    refine ⟨(((ro0.range {"member_3", "member_2", "member_1"}).length : Int),
      fixDiff.addAll "set2" (ro0.range {"member_3", "member_2", "member_1"})),
      by simp only [Set.SUnionStore, Set.SUnion_single ro0 fixDiff "set" _ h1], ?_, ?_⟩
    · simp only [RangeOrder.range_length]
      decide
    · simp only
      rw [Set.SCard_of_records _ "set2" _ (Set.addAll_records_of_present fixDiff "set2" _ _ h2),
        RangeOrder.range_toFinset]
      decide

/-- An instance of `SUnionStore_returns_union_size` with two present keys. -/
theorem SUnionStore_returns_union_size_witness :
    fixUnion.SUnion ro0 ["set", "set2"]
      = some ((ro0.sub 1).range (union (ro0.sub 0) {"member_3", "member_2", "member_1"}
          {"member_3", "member_2", "member_1"} [])) ∧
    ∃ r, fixUnion.SUnionStore ro0 "dest" ["set", "set2"] = some r ∧
      r.1 = (((ro0.sub 1).range (union (ro0.sub 0) {"member_3", "member_2", "member_1"}
          {"member_3", "member_2", "member_1"} [])).length : Int) ∧
      (∀ x, r.2.SIsMember "dest" x = true ↔ fixUnion.SIsMember "dest" x = true ∨
        x ∈ (ro0.sub 1).range (union (ro0.sub 0) {"member_3", "member_2", "member_1"}
          {"member_3", "member_2", "member_1"} [])) ∧
      ∀ k, k ≠ "dest" → r.2.records k = fixUnion.records k :=
  have h := Set.SUnion_of_collect ro0 fixUnion ["set", "set2"]
    {"member_3", "member_2", "member_1"} {"member_3", "member_2", "member_1"} [] (by decide)
  ⟨h, (SUnionStore_returns_union_size ro0 ro0 fixUnion "dest" ["set", "set2"]).2.1 _ h⟩

/-- Claim C15.  `SInterStore` single-key asymmetry: with exactly one key `k` it
returns the current cardinality of the set of `k` (0 when `k` is absent) and
the registry after the call is the registry before it, so `dest` is neither
created nor changed; with no keys it returns 0 with the registry unchanged. -/
theorem SInterStore_single_key_stores_nothing (ro : RangeOrder ι) (s : Set ι) (dest k : String) :
    s.SInterStore ro dest [k] = some (s.SCard k, s) ∧
    (s.SKeyExists k = false → s.SCard k = 0) ∧
    s.SInterStore ro dest [] = some (0, s) := by
  refine ⟨?_, ?_, rfl⟩
  · by_cases hk : s.exists k = true
    · simp [Set.SInterStore, Set.SCard, hk, set.size]
    · simp [Set.SInterStore, Set.SCard, hk]
  · intro hk
    simp [Set.SCard, Set.SKeyExists] at hk ⊢
    simp [hk]

/-- Claim C16.  `SClear` removes exactly one key: afterwards `SKeyExists(key)` is
false, `SMembers(key)` is empty and `SCard(key)` is 0, every other key is
mapped as before, and when the key was absent the registry is unchanged. -/
theorem SClear_removes_exactly_one_key (ro : RangeOrder ι) (s : Set ι) (key : String) :
    (s.SClear key).SKeyExists key = false ∧
    (s.SClear key).SMembers ro key = [] ∧
    (s.SClear key).SCard key = 0 ∧
    (∀ k, k ≠ key → (s.SClear key).records k = s.records k) ∧
    (s.SKeyExists key = false → s.SClear key = s) := by
  have hrec : (s.SClear key).records key = none := by
    unfold Set.SClear
    by_cases hk : s.SKeyExists key = true
    · simp [hk]
    · simp only [hk]
      simpa [Set.SKeyExists, Set.exists] using hk
  refine ⟨?_, ?_, ?_, ?_, ?_⟩
  · simp [Set.SKeyExists, Set.exists, hrec]
  · simp [Set.SMembers, Set.exists, hrec]
  · exact Set.SCard_of_absent _ key hrec
  · intro k hk
    unfold Set.SClear
    by_cases hx : s.SKeyExists key = true
    · simp [hx, Function.update_noteq hk]
    · simp [hx]
  · intro hk
    simp [Set.SClear, hk]

/-- Claim C18.  Add/remove inverse: for a member that is not in the key's set (the
key may be absent), `SAdd` followed by `SRem` of that member gives back the
prior `SCard(key)` and the prior `SIsMember(key, x)` for every `x`, and leaves
every other key unchanged. -/
theorem SAdd_then_SRem_restores (s : Set ι) (key : String) (member : ι)
    (h : s.SIsMember key member = false) :
    ((s.SAdd key member).2.SRem key member).1 = true ∧
    ((s.SAdd key member).2.SRem key member).2.SCard key = s.SCard key ∧
    (∀ x, ((s.SAdd key member).2.SRem key member).2.SIsMember key x = s.SIsMember key x) ∧
    ∀ k, k ≠ key → ((s.SAdd key member).2.SRem key member).2.records k = s.records k := by
  have hadd : (s.SAdd key member).2 = s.put key (insert member (s.get key)) := by
    rw [Set.SAdd_eq]
  have hrec := Set.put_records_same s key (insert member (s.get key))
  have hmem : (s.put key (insert member (s.get key))).SIsMember key member = true := by
    rw [Set.SIsMember_of_records _ key _ member hrec]; simp
  have hnot : member ∉ s.get key := by
    cases hk : s.records key with
    | none => simp [Set.get, hk]
    | some m =>
      rw [Set.SIsMember_of_records s key m member hk] at h
      simpa [Set.get, hk] using h
  rw [hadd, Set.SRem_eq, if_pos hmem, Set.get_put_same, Set.put_put,
    Finset.erase_insert hnot]
  have hrec' := Set.put_records_same s key (s.get key)
  refine ⟨rfl, ?_, ?_, ?_⟩
  · rw [Set.SCard_of_records _ key _ hrec']
    cases hk : s.records key with
    | none => simp [Set.get, hk, Set.SCard_of_absent s key hk]
    | some m => rw [Set.SCard_of_records s key m hk, Set.get_of_records s key m hk]
  · intro x
    rw [Set.SIsMember_of_records _ key _ x hrec']
    cases hk : s.records key with
    | none => simp [Set.get, hk, Set.SIsMember_false_of_absent s key x hk]
    | some m => rw [Set.SIsMember_of_records s key m x hk, Set.get_of_records s key m hk]
  · intro k hk
    exact Set.put_records_ne s _ hk

/-- Instances of `SInterStore_single_key_stores_nothing`: a present and an absent
single key, with `dest` absent before and after. -/
theorem SInterStore_single_key_stores_nothing_witness :
    fixDiff.SInterStore ro0 "dest" ["set"] = some (3, fixDiff) ∧
    fixDiff.SInterStore ro0 "dest" ["not_set"] = some (0, fixDiff) ∧
    fixDiff.SKeyExists "dest" = false := by
  refine ⟨?_, ?_, by decide⟩
  · rw [(SInterStore_single_key_stores_nothing ro0 fixDiff "dest" "set").1]
    simp only [Option.some.injEq, Prod.mk.injEq, and_true]
    decide
  · rw [(SInterStore_single_key_stores_nothing ro0 fixDiff "dest" "not_set").1]
    simp only [Option.some.injEq, Prod.mk.injEq, and_true]
    decide

/-- The scenario of `TestSet_SClear` and `TestSet_SKeyExists` from
`SClear_removes_exactly_one_key`. -/
theorem SClear_removes_exactly_one_key_witness :
    (fixDiff.SClear "set").SKeyExists "set" = false ∧
    (fixDiff.SClear "set").SMembers ro0 "set" = [] ∧
    (fixDiff.SClear "set").SCard "set" = 0 ∧
    (fixDiff.SClear "set").records "set2" = fixDiff.records "set2" ∧
    (fixDiff.SKeyExists "not_set" = false ∧ fixDiff.SClear "not_set" = fixDiff) :=
  have h := SClear_removes_exactly_one_key ro0 fixDiff "set"
  ⟨h.1, h.2.1, h.2.2.1, h.2.2.2.1 "set2" (by decide), by decide,
    (SClear_removes_exactly_one_key ro0 fixDiff "not_set").2.2.2.2 (by decide)⟩

/-- An instance of `SAdd_then_SRem_restores`: member 4 added to and removed from `set`. -/
theorem SAdd_then_SRem_restores_witness :
    fixDiff.SIsMember "set" "member_4" = false ∧
    ((fixDiff.SAdd "set" "member_4").2.SRem "set" "member_4").1 = true ∧
    ((fixDiff.SAdd "set" "member_4").2.SRem "set" "member_4").2.SCard "set"
      = fixDiff.SCard "set" ∧
    (∀ x, ((fixDiff.SAdd "set" "member_4").2.SRem "set" "member_4").2.SIsMember "set" x
      = fixDiff.SIsMember "set" x) ∧
    ∀ k, k ≠ "set" →
      ((fixDiff.SAdd "set" "member_4").2.SRem "set" "member_4").2.records k
        = fixDiff.records k :=
  ⟨by decide, SAdd_then_SRem_restores fixDiff "set" "member_4" (by decide)⟩

/-! ## Key lifecycle -/

theorem Set.put_exists (s : Set ι) (key k : String) (v : set ι) (h : s.exists k = true) :
    (s.put key v).exists k = true := by
  by_cases hk : k = key
  · subst hk; simp [Set.exists, Set.put]
  · simpa [Set.exists, Set.put, Function.update_noteq hk] using h

theorem Set.addAll_exists (s : Set ι) (key k : String) (un : List ι) (h : s.exists k = true) :
    (s.addAll key un).exists k = true := by
  induction un generalizing s with
  | nil => exact h
  | cons x xs ih =>
    rw [Set.addAll_cons]
    exact ih _ (Set.put_exists s key k _ h)

/-- Claim C17.  Only `SClear` removes a key: a key that is present before `SAdd`,
`SPop`, `SRem`, `SMove`, `SRandMember`, or a returning `SUnionStore`,
`SDiffStore` or `SInterStore` is present after it.  The read-only queries
(`SIsMember`, `SCard`, `SMembers`, `SKeyExists`, `SUnion`, `SDiff`, `SInter`)
contain no write and are functions of the registry alone. -/
theorem only_SClear_removes_a_key (ro : RangeOrder ι) (nil : ι) (s : Set ι) (k : String)
    (hk : s.SKeyExists k = true) :
    (∀ key member, (s.SAdd key member).2.SKeyExists k = true) ∧
    (∀ key count, (s.SPop ro key count).2.SKeyExists k = true) ∧
    (∀ key member, (s.SRem key member).2.SKeyExists k = true) ∧
    (∀ src dst member, (s.SMove src dst member).2.SKeyExists k = true) ∧
    (∀ key count, (s.SRandMember ro nil key count).2.SKeyExists k = true) ∧
    (∀ key keys r, s.SUnionStore ro key keys = some r → r.2.SKeyExists k = true) ∧
    (∀ key keys r, s.SDiffStore ro key keys = some r → r.2.SKeyExists k = true) ∧
    (∀ key keys r, s.SInterStore ro key keys = some r → r.2.SKeyExists k = true) := by
  have hk' : s.exists k = true := hk
  refine ⟨?_, ?_, ?_, ?_, ?_, ?_, ?_, ?_⟩
  · intro key member
    rw [Set.SAdd_eq]
    exact Set.put_exists s key k _ hk'
  · intro key count
    by_cases h : s.exists key = true ∧ 0 < count
    · obtain ⟨m, hm⟩ := (Set.exists_iff s key).mp h.1
      rw [Set.SPop_of_present ro s key count m hm h.2]
      exact Set.put_exists s key k _ hk'
    · rw [Set.SPop_of_absent ro s key count]
      · exact hk
      · by_cases h1 : s.exists key = true
        · right
          have h3 : ¬ (0 < count) := fun h2 => h ⟨h1, h2⟩
          omega
        · left
          simpa using h1
  · intro key member
    rw [Set.SRem_eq]
    split
    · exact Set.put_exists s key k _ hk'
    · exact hk
  · intro src dst member
    by_cases h : s.SIsMember src member = true
    · rw [Set.SMove_eq s src dst member h]
      exact Set.put_exists _ dst k _ (Set.put_exists s src k _ hk')
    · rw [(Set.SMove_of_not_member s src dst member (by simpa using h))]
      exact hk
  · intro key count
    have : (s.SRandMember ro nil key count).2 = s := by
      unfold Set.SRandMember
      split
      · rfl
      · split <;> rfl
    rw [this]
    exact hk
  · intro key keys r hr
    unfold Set.SUnionStore at hr
    split at hr
    · exact absurd hr (by simp)
    · simp only [Option.some.injEq] at hr
      rw [← hr]
      exact Set.addAll_exists s key k _ hk'
  · intro key keys r hr
    unfold Set.SDiffStore at hr
    split at hr
    · exact absurd hr (by simp)
    · simp only [Option.some.injEq] at hr
      rw [← hr]
      exact Set.addAll_exists s key k _ hk'
  · intro key keys r hr
    unfold Set.SInterStore at hr
    split at hr
    · simp only [Option.some.injEq] at hr
      rw [← hr]; exact hk
    · split at hr <;> simp only [Option.some.injEq] at hr <;> rw [← hr] <;> exact hk
    · split at hr
      · exact absurd hr (by simp)
      · simp only [Option.some.injEq] at hr
        rw [← hr]
        exact Set.addAll_exists s key k _ hk'

/-- Instances of `only_SClear_removes_a_key` where the last member is removed by
`SRem`, `SMove` and `SPop`: the key stays present with cardinality 0. -/
theorem only_SClear_removes_a_key_witness :
    one.SKeyExists "set" = true ∧
    ((one.SRem "set" (Value.str "a")).2.SKeyExists "set" = true ∧
      (one.SRem "set" (Value.str "a")).2.SCard "set" = 0) ∧
    ((one.SMove "set" "other" (Value.str "a")).2.SKeyExists "set" = true ∧
      (one.SMove "set" "other" (Value.str "a")).2.SCard "set" = 0) ∧
    ((one.SPop roV "set" 1).2.SKeyExists "set" = true ∧
      (one.SPop roV "set" 1).2.SCard "set" = 0) := by
  have h := only_SClear_removes_a_key roV ⊥ one "set" (by decide)
  refine ⟨by decide, ⟨h.2.2.1 _ _, by decide⟩, ⟨h.2.2.2.1 _ _ _, by decide⟩, h.2.1 _ _, ?_⟩
  have hm : one.records "set" = some {Value.str "a"} := by decide
  rw [Set.SPop_of_present roV one "set" 1 _ hm (by decide),
    Set.SCard_of_records _ "set" _ (Set.put_records_same one "set" _)]
  have hlen : (roV.range {Value.str "a"}).length = 1 := by
    rw [RangeOrder.range_length]; decide
  have htake : (roV.range {Value.str "a"}).take (1 : Int).toNat = roV.range {Value.str "a"} :=
    List.take_of_length_le (by rw [hlen]; decide)
  rw [htake, RangeOrder.range_toFinset]
  simp

/-! ## Union: cardinality and non-modification of the operands -/

theorem card_foldl_union (sets : List (Finset ι)) (u : Finset ι) :
    (sets.foldl (fun u t => u ∪ t) u).card ≤ u.card + (sets.map Finset.card).sum ∧
    ((sets.foldl (fun u t => u ∪ t) u).card = u.card + (sets.map Finset.card).sum →
      (∀ t ∈ sets, Disjoint u t) ∧ sets.Pairwise Disjoint) := by
  induction sets generalizing u with
  | nil => simp
  | cons t sets ih =>
    obtain ⟨hle, heq⟩ := ih (u ∪ t)
    have hut := Finset.card_union_le u t
    simp only [List.foldl_cons, List.map_cons, List.sum_cons]
    refine ⟨by omega, ?_⟩
    intro h
    have h1 : (u ∪ t).card = u.card + t.card := by omega
    have h2 : (sets.foldl (fun u t => u ∪ t) (u ∪ t)).card
        = (u ∪ t).card + (sets.map Finset.card).sum := by omega
    obtain ⟨hd, hp⟩ := heq h2
    have hdisj : Disjoint u t := Finset.card_union_eq_card_add_card.mp h1
    refine ⟨?_, ?_⟩
    · intro x hx
      rcases List.mem_cons.mp hx with rfl | hx
      · exact hdisj
      · exact (Finset.disjoint_union_left.mp (hd x hx)).1
    · rw [List.pairwise_cons]
      exact ⟨fun x hx => (Finset.disjoint_union_left.mp (hd x hx)).2, hp⟩

theorem Heap.load_store (h : Heap ι) (s r : Nat) (v : Finset ι) :
    Heap.load (Heap.store h s v) r = if s = r ∧ s < h.length then v else Heap.load h r := by
  unfold Heap.load Heap.store
  rw [List.getElem?_set]
  by_cases h1 : s = r
  · subst h1
    by_cases h2 : s < h.length
    · simp [h2]
    · simp [h2, List.getElem?_eq_none (Nat.le_of_not_lt h2)]
  · simp [h1]

theorem Heap.add_one_item (h : Heap ι) (s : Nat) (item : ι) :
    Heap.add h s [item] = Heap.store h s (insert item (Heap.load h s)) := by
  simp [Heap.add]

theorem Heap.foldl_add (l : List ι) (h : Heap ι) (u : Nat) (hu : u < h.length) :
    (l.foldl (fun h item => Heap.add h u [item]) h).length = h.length ∧
    Heap.load (l.foldl (fun h item => Heap.add h u [item]) h) u = Heap.load h u ∪ l.toFinset ∧
    ∀ r, r ≠ u → Heap.load (l.foldl (fun h item => Heap.add h u [item]) h) r = Heap.load h r := by
  induction l generalizing h with
  | nil => simp
  | cons a l ih =>
    have hlen : (Heap.add h u [a]).length = h.length := by
      simp [Heap.add_one_item, Heap.store]
    obtain ⟨h1, h2, h3⟩ := ih (Heap.add h u [a]) (by rw [hlen]; exact hu)
    simp only [List.foldl_cons]
    refine ⟨by rw [h1, hlen], ?_, ?_⟩
    · rw [h2, Heap.add_one_item, Heap.load_store, if_pos ⟨rfl, hu⟩]
      ext x
      simp only [Finset.mem_union, Finset.mem_insert, List.toFinset_cons]
      tauto
    · intro r hr
      rw [h3 r hr, Heap.add_one_item, Heap.load_store, if_neg]
      rintro ⟨e, _⟩
      exact hr e.symm

theorem Heap.each_add (ro : RangeOrder ι) (h : Heap ι) (t u : Nat) (hu : u < h.length) :
    (Heap.each ro h t (fun item h => (Heap.add h u [item], true))).length = h.length ∧
    Heap.load (Heap.each ro h t (fun item h => (Heap.add h u [item], true))) u
      = Heap.load h u ∪ Heap.load h t ∧
    ∀ r, r ≠ u →
      Heap.load (Heap.each ro h t (fun item h => (Heap.add h u [item], true))) r
        = Heap.load h r := by
  unfold Heap.each
  rw [eachLoop_continue (fun item h => Heap.add h u [item])]
  have := Heap.foldl_add (ro.range (Heap.load h t)) h u hu
  rw [ro.range_toFinset] at this
  exact this

theorem Heap.load_newSet (h : Heap ι) (r : Nat) :
    Heap.load (Heap.newSet h).1 r = Heap.load h r := by
  unfold Heap.load Heap.newSet
  by_cases hr : r < h.length
  · rw [List.getElem?_append_left hr]
  · have hle : h.length ≤ r := Nat.le_of_not_lt hr
    rw [List.getElem?_append_right hle, List.getElem?_eq_none hle]
    cases hx : r - h.length with
    | zero => simp
    | succ n => simp

theorem Heap.copy_spec (ro : RangeOrder ι) (h : Heap ι) (s : Nat) :
    (Heap.copy ro h s).2 = h.length ∧
    (Heap.copy ro h s).1.length = h.length + 1 ∧
    Heap.load (Heap.copy ro h s).1 (Heap.copy ro h s).2 = Heap.load h s ∧
    ∀ r, r ≠ h.length → Heap.load (Heap.copy ro h s).1 r = Heap.load h r := by
  unfold Heap.copy
  have hu : (Heap.newSet h).2 < (Heap.newSet h).1.length := by simp [Heap.newSet]
  obtain ⟨h1, h2, h3⟩ := Heap.foldl_add (ro.range (Heap.load (Heap.newSet h).1 s))
    (Heap.newSet h).1 (Heap.newSet h).2 hu
  refine ⟨rfl, ?_, ?_, ?_⟩
  · simp only [h1]; simp [Heap.newSet]
  · have hfresh : Heap.load h (Heap.newSet h).2 = ∅ := by
      simp [Heap.load, Heap.newSet]
    simp only
    rw [h2, ro.range_toFinset, Heap.load_newSet, Heap.load_newSet, hfresh]
    simp
  · intro r hr
    simp only
    rw [h3 r hr, Heap.load_newSet]

theorem Heap.unionRest_spec (ro : RangeOrder ι) (u i : Nat) (sets : List Nat) (h : Heap ι)
    (hu : u < h.length) (hne : ∀ t ∈ sets, t ≠ u) :
    Heap.load (Heap.unionRest ro u i sets h) u
      = (sets.map (Heap.load h)).foldl (fun u t => u ∪ t) (Heap.load h u) ∧
    ∀ r, r ≠ u → Heap.load (Heap.unionRest ro u i sets h) r = Heap.load h r := by
  induction sets generalizing i h with
  | nil => simp [Heap.unionRest]
  | cons t sets ih =>
    obtain ⟨e1, e2, e3⟩ := Heap.each_add (ro.sub i) h t u hu
    have hne' : ∀ t ∈ sets, t ≠ u := fun x hx => hne x (List.mem_cons_of_mem _ hx)
    obtain ⟨i1, i2⟩ := ih (i + 1) _ (by rw [e1]; exact hu) hne'
    simp only [Heap.unionRest, List.map_cons, List.foldl_cons]
    refine ⟨?_, ?_⟩
    · rw [i1, e2]
      congr 1
      apply List.map_congr_left
      intro x hx
      exact e3 x (hne' x hx)
    · intro r hr
      rw [i2 r hr, e3 r hr]

theorem union_on_heap (ro : RangeOrder ι) (h : Heap ι) (set1 set2 : Nat) (sets : List Nat)
    (h2 : set2 < h.length) (hs : ∀ t ∈ sets, t < h.length) :
    (∀ r, r < h.length → Heap.load (Heap.union ro h set1 set2 sets).1 r = Heap.load h r) ∧
    Heap.load (Heap.union ro h set1 set2 sets).1 (Heap.union ro h set1 set2 sets).2
      = union ro (Heap.load h set1) (Heap.load h set2) (sets.map (Heap.load h)) := by
  obtain ⟨c1, c2, c3, c4⟩ := Heap.copy_spec (ro.sub 0) h set1
  have hu : (Heap.copy (ro.sub 0) h set1).2 < (Heap.copy (ro.sub 0) h set1).1.length := by
    rw [c1, c2]; exact Nat.lt_succ_self _
  obtain ⟨e1, e2, e3⟩ := Heap.each_add (ro.sub 1) (Heap.copy (ro.sub 0) h set1).1 set2
    (Heap.copy (ro.sub 0) h set1).2 hu
  have hne : ∀ t ∈ sets, t ≠ (Heap.copy (ro.sub 0) h set1).2 := by
    intro t ht
    rw [c1]
    exact Nat.ne_of_lt (hs t ht)
  obtain ⟨r1, r2⟩ := Heap.unionRest_spec ro (Heap.copy (ro.sub 0) h set1).2 2 sets _
    (by rw [e1]; exact hu) hne
  simp only [Heap.union]
  refine ⟨?_, ?_⟩
  · intro r hr
    have hru : r ≠ (Heap.copy (ro.sub 0) h set1).2 := by rw [c1]; exact Nat.ne_of_lt hr
    rw [r2 r hru, e3 r hru, c4 r (Nat.ne_of_lt hr)]
  · rw [r1, e2, c3, union_eq, c4 set2 (Nat.ne_of_lt h2)]
    congr 1
    apply List.map_congr_left
    intro t ht
    have htu : t ≠ (Heap.copy (ro.sub 0) h set1).2 := hne t ht
    rw [e3 t htu, c4 t (Nat.ne_of_lt (hs t ht))]

/-- Claim C20.  Union cardinality bound: the size of `union(A, B, rest...)` is at
most `|A| + |B|` plus the sum of the sizes of the sets in `rest`; if it equals
that sum, the operands `A`, `B` and the members of `rest` are pairwise disjoint
by position; and on a heap where `A`, `B` and `rest` are the maps behind
allocated references, the call leaves every existing map as it was and the new
map it returns holds the union. -/
theorem union_cardinality_bound (ro : RangeOrder ι) (A B : set ι) (rest : List (set ι)) :
    (union ro A B rest).card ≤ A.card + B.card + (rest.map Finset.card).sum ∧
    ((union ro A B rest).card = A.card + B.card + (rest.map Finset.card).sum →
      (A :: B :: rest).Pairwise Disjoint) ∧
    ∀ (h : Heap ι) (a b : Nat) (rs : List Nat),
      a < h.length → b < h.length → (∀ r ∈ rs, r < h.length) →
      Heap.load h a = A → Heap.load h b = B → rs.map (Heap.load h) = rest →
      (∀ r, r < h.length → Heap.load (Heap.union ro h a b rs).1 r = Heap.load h r) ∧
      Heap.load (Heap.union ro h a b rs).1 (Heap.union ro h a b rs).2 = union ro A B rest := by
  have hle : (union ro A B rest).card ≤ (A ∪ B).card + (rest.map Finset.card).sum := by
    rw [union_eq]; exact (card_foldl_union rest (A ∪ B)).1
  have heq : (union ro A B rest).card = (A ∪ B).card + (rest.map Finset.card).sum →
      (∀ t ∈ rest, Disjoint (A ∪ B) t) ∧ rest.Pairwise Disjoint := by
    rw [union_eq]; exact (card_foldl_union rest (A ∪ B)).2
  have hAB : (A ∪ B).card ≤ A.card + B.card := Finset.card_union_le A B
  refine ⟨by omega, ?_, ?_⟩
  · intro h
    have h1 : (A ∪ B).card = A.card + B.card := by omega
    have h2 : (union ro A B rest).card = (A ∪ B).card + (rest.map Finset.card).sum := by omega
    obtain ⟨hd, hp⟩ := heq h2
    have hdisj : Disjoint A B := Finset.card_union_eq_card_add_card.mp h1
    rw [List.pairwise_cons, List.pairwise_cons]
    refine ⟨?_, fun x hx => (Finset.disjoint_union_left.mp (hd x hx)).2, hp⟩
    intro x hx
    rcases List.mem_cons.mp hx with rfl | hx
    · exact hdisj
    · exact (Finset.disjoint_union_left.mp (hd x hx)).1
  · intro h a b rs ha hb hrs hA hB hrest
    have := union_on_heap ro h a b rs hb hrs
    rw [hA, hB, hrest] at this
    exact this

/-- An instance of `union_cardinality_bound` on three maps of a heap. -/
theorem union_cardinality_bound_witness :
    (union ro0 {"a", "b"} {"b", "c"} [{"d"}]).card
      ≤ ({"a", "b"} : Finset String).card + ({"b", "c"} : Finset String).card
        + ([({"d"} : Finset String)].map Finset.card).sum ∧
    (0 < fixHeap.length ∧ 1 < fixHeap.length ∧ ∀ r ∈ [2], r < fixHeap.length) ∧
    (∀ r, r < fixHeap.length →
      Heap.load (Heap.union ro0 fixHeap 0 1 [2]).1 r = Heap.load fixHeap r) ∧
    Heap.load (Heap.union ro0 fixHeap 0 1 [2]).1 (Heap.union ro0 fixHeap 0 1 [2]).2
      = union ro0 {"a", "b"} {"b", "c"} [{"d"}] :=
  have h := union_cardinality_bound ro0 ({"a", "b"} : Finset String) {"b", "c"} [{"d"}]
  ⟨h.1, ⟨by decide, by decide, by decide⟩,
    h.2.2 fixHeap 0 1 [2] (by decide) (by decide) (by decide) (by decide) (by decide)
      (by decide)⟩

/-! ## Store variants on an empty combination -/

theorem Set.SUnionStore_of_nil (ro ro' : RangeOrder ι) (s : Set ι) (dest : String)
    (keys : List String) (h : s.SUnion ro' keys = some []) :
    s.SUnionStore ro dest keys = some (0, s) := by
  obtain ⟨un, hun, hperm⟩ := Set.SUnion_perm ro' ro s keys [] h
  rw [List.nil_perm] at hperm
  subst hperm
  simp [Set.SUnionStore, hun, Set.addAll_nil]

theorem Set.SDiffStore_of_nil (ro ro' : RangeOrder ι) (s : Set ι) (dest : String)
    (keys : List String) (h : s.SDiff ro' keys = some []) :
    s.SDiffStore ro dest keys = some (0, s) := by
  obtain ⟨un, hun, hperm⟩ := Set.SDiff_perm ro' ro s keys [] h
  rw [List.nil_perm] at hperm
  subst hperm
  simp [Set.SDiffStore, hun, Set.addAll_nil]

theorem Set.SInterStore_of_nil (ro ro' : RangeOrder ι) (s : Set ι) (dest : String)
    (keys : List String) (h : s.SInter ro' keys = some []) :
    s.SInterStore ro dest keys = some (0, s) := by
  match keys with
  | [] => rfl
  | [k] =>
    by_cases hk : s.exists k = true
    · simp only [Set.SInter, hk, if_true, set.list_eq, Option.some.injEq] at h
      have hcard : (s.get k).card = 0 := by
        rw [← ro'.range_length, h]; rfl
      simp [Set.SInterStore, hk, hcard]
    · simp [Set.SInterStore, hk]
  | k1 :: k2 :: ks =>
    obtain ⟨un, hun, hperm⟩ := Set.SInter_perm ro' ro s _ [] h
    rw [List.nil_perm] at hperm
    subst hperm
    simp [Set.SInterStore, hun, Set.addAll_nil]

/-- Claim C19.  A store variant creates its destination only by writing at least
one element: if the combination computed by `SUnion`, `SDiff` or `SInter`
(under any iteration order) is empty, then `SUnionStore`, `SDiffStore` and
`SInterStore` respectively return 0 and leave the registry unchanged; in
particular a destination key that was absent is still absent afterwards. -/
theorem store_of_empty_combination_writes_nothing (ro ro' : RangeOrder ι) (s : Set ι)
    (dest : String) (keys : List String) :
    (s.SUnion ro' keys = some [] → s.SUnionStore ro dest keys = some (0, s)) ∧
    (s.SDiff ro' keys = some [] → s.SDiffStore ro dest keys = some (0, s)) ∧
    (s.SInter ro' keys = some [] → s.SInterStore ro dest keys = some (0, s)) ∧
    (s.SKeyExists dest = false → ∀ r,
      (s.SUnion ro' keys = some [] ∧ s.SUnionStore ro dest keys = some r) ∨
      (s.SDiff ro' keys = some [] ∧ s.SDiffStore ro dest keys = some r) ∨
      (s.SInter ro' keys = some [] ∧ s.SInterStore ro dest keys = some r) →
      r.1 = 0 ∧ r.2.SKeyExists dest = false) := by
  refine ⟨Set.SUnionStore_of_nil ro ro' s dest keys, Set.SDiffStore_of_nil ro ro' s dest keys,
    Set.SInterStore_of_nil ro ro' s dest keys, ?_⟩
  intro hd r hr
  have hrs : r = (0, s) := by
    rcases hr with ⟨h1, h2⟩ | ⟨h1, h2⟩ | ⟨h1, h2⟩
    · rw [Set.SUnionStore_of_nil ro ro' s dest keys h1] at h2
      exact (Option.some.inj h2).symm
    · rw [Set.SDiffStore_of_nil ro ro' s dest keys h1] at h2
      exact (Option.some.inj h2).symm
    · rw [Set.SInterStore_of_nil ro ro' s dest keys h1] at h2
      exact (Option.some.inj h2).symm
  rw [hrs]
  exact ⟨rfl, hd⟩

/-- Instances of `store_of_empty_combination_writes_nothing`: an absent single key,
a difference of equal sets and an intersection of disjoint sets. -/
theorem store_of_empty_combination_writes_nothing_witness :
    (fixShift.SUnion ro0 ["a"] = some [] ∧
      fixShift.SUnionStore ro0 "a" ["a"] = some (0, fixShift)) ∧
    (fixUnion.SDiff ro0 ["set", "set2"] = some [] ∧
      fixUnion.SDiffStore ro0 "dest" ["set", "set2"] = some (0, fixUnion)) ∧
    (fixShift.SInter ro0 ["b", "c"] = some [] ∧
      fixShift.SInterStore ro0 "dest" ["b", "c"] = some (0, fixShift)) ∧
    fixShift.SKeyExists "dest" = false := by
  have hU : fixShift.SUnion ro0 ["a"] = some [] := by decide
  have hD : fixUnion.SDiff ro0 ["set", "set2"] = some [] := by
    rw [Set.SDiff_of_collect ro0 fixUnion _ {"member_3", "member_2", "member_1"}
      {"member_3", "member_2", "member_1"} [] (by decide), difference_eq]
    have : List.foldl (fun s t => s \ t)
        (({"member_3", "member_2", "member_1"} : Finset String)
          \ {"member_3", "member_2", "member_1"}) [] = ∅ := by decide
    rw [this, RangeOrder.range_empty]
  have hI : fixShift.SInter ro0 ["b", "c"] = some [] := by
    rw [Set.SInter_of_collect ro0 fixShift _ {"x"} {"y"} [] (by decide)]
    have : intersection (ro0.sub 0) ({"x"} : Finset String) {"y"} [] = ∅ := by
      ext z
      rw [mem_intersection]
      simp only [Finset.not_mem_empty, iff_false]
      intro hz
      have h1 : z ∈ ({"x"} : Finset String) := hz _ (by simp)
      have h2 : z ∈ ({"y"} : Finset String) := hz _ (by simp)
      rw [Finset.mem_singleton] at h1 h2
      exact absurd (h1.symm.trans h2) (by decide)
    rw [this, RangeOrder.range_empty]
  exact ⟨⟨hU, (store_of_empty_combination_writes_nothing ro0 ro0 fixShift "a" ["a"]).1 hU⟩,
    ⟨hD, (store_of_empty_combination_writes_nothing ro0 ro0 fixUnion "dest"
      ["set", "set2"]).2.1 hD⟩,
    ⟨hI, (store_of_empty_combination_writes_nothing ro0 ro0 fixShift "dest"
      ["b", "c"]).2.2.1 hI⟩, by decide⟩

end GoSet
